import Mathlib

/-!
# gopos: the thermal printer protocol layer of `printer.go`

A shallow embedding of the frame codec, the CRC-8 checksum, the bitmap
encoder, the print session and the address parser, followed by the
properties established about them.

Conventions of the embedding:

* a Go `byte` is `Fin 256`; `byte(n)` of an integer is `toByte n`, i.e. `n % 256`;
* a Go `[]byte` and a Go `string` are `List Byte` (a string is its byte sequence);
* the methods `crc8`, `formatMessage` and `generateBitMapFromImage` never read
  their receiver, so the receiver is left out; `sendCommand` reads `p.fd`;
* effects on the outside world (`unix.Write`, `time.Sleep`) are appended to an
  explicit trace, and what the operating system answers comes from an `OS` record.
-/

namespace Gopos

set_option linter.dupNamespace false

/-! ## Bytes -/

/-- Go's `byte`. -/
abbrev Byte := Fin 256

/-- Go's conversion `byte(n)` of a non-negative integer: truncation to 8 bits. -/
def toByte (n : Nat) : Byte := ⟨n % 256, Nat.mod_lt n (by decide)⟩

/-! ## Command constants (printer.go, lines 14-21) -/

def commandRetractPaper : Byte := 0xA0
def commandFeedPaper : Byte := 0xA1
def commandDrawBitmap : Byte := 0xA2
def commandDrawingMode : Byte := 0xBE
def commandSetEnergy : Byte := 0xAF
def commandSetQuality : Byte := 0xA4

/-! ## Checksum (printer.go, lines 159-188) -/

/-- The literal 256-entry lookup table `crc8_table`. -/
def crc8_table : List Byte :=
  [
   0x00, 0x07, 0x0e, 0x09, 0x1c, 0x1b, 0x12, 0x15, 0x38, 0x3f, 0x36, 0x31,
   0x24, 0x23, 0x2a, 0x2d, 0x70, 0x77, 0x7e, 0x79, 0x6c, 0x6b, 0x62, 0x65,
   0x48, 0x4f, 0x46, 0x41, 0x54, 0x53, 0x5a, 0x5d, 0xe0, 0xe7, 0xee, 0xe9,
   0xfc, 0xfb, 0xf2, 0xf5, 0xd8, 0xdf, 0xd6, 0xd1, 0xc4, 0xc3, 0xca, 0xcd,
   0x90, 0x97, 0x9e, 0x99, 0x8c, 0x8b, 0x82, 0x85, 0xa8, 0xaf, 0xa6, 0xa1,
   0xb4, 0xb3, 0xba, 0xbd, 0xc7, 0xc0, 0xc9, 0xce, 0xdb, 0xdc, 0xd5, 0xd2,
   0xff, 0xf8, 0xf1, 0xf6, 0xe3, 0xe4, 0xed, 0xea, 0xb7, 0xb0, 0xb9, 0xbe,
   0xab, 0xac, 0xa5, 0xa2, 0x8f, 0x88, 0x81, 0x86, 0x93, 0x94, 0x9d, 0x9a,
   0x27, 0x20, 0x29, 0x2e, 0x3b, 0x3c, 0x35, 0x32, 0x1f, 0x18, 0x11, 0x16,
   0x03, 0x04, 0x0d, 0x0a, 0x57, 0x50, 0x59, 0x5e, 0x4b, 0x4c, 0x45, 0x42,
   0x6f, 0x68, 0x61, 0x66, 0x73, 0x74, 0x7d, 0x7a, 0x89, 0x8e, 0x87, 0x80,
   0x95, 0x92, 0x9b, 0x9c, 0xb1, 0xb6, 0xbf, 0xb8, 0xad, 0xaa, 0xa3, 0xa4,
   0xf9, 0xfe, 0xf7, 0xf0, 0xe5, 0xe2, 0xeb, 0xec, 0xc1, 0xc6, 0xcf, 0xc8,
   0xdd, 0xda, 0xd3, 0xd4, 0x69, 0x6e, 0x67, 0x60, 0x75, 0x72, 0x7b, 0x7c,
   0x51, 0x56, 0x5f, 0x58, 0x4d, 0x4a, 0x43, 0x44, 0x19, 0x1e, 0x17, 0x10,
   0x05, 0x02, 0x0b, 0x0c, 0x21, 0x26, 0x2f, 0x28, 0x3d, 0x3a, 0x33, 0x34,
   0x4e, 0x49, 0x40, 0x47, 0x52, 0x55, 0x5c, 0x5b, 0x76, 0x71, 0x78, 0x7f,
   0x6a, 0x6d, 0x64, 0x63, 0x3e, 0x39, 0x30, 0x37, 0x22, 0x25, 0x2c, 0x2b,
   0x06, 0x01, 0x08, 0x0f, 0x1a, 0x1d, 0x14, 0x13, 0xae, 0xa9, 0xa0, 0xa7,
   0xb2, 0xb5, 0xbc, 0xbb, 0x96, 0x91, 0x98, 0x9f, 0x8a, 0x8d, 0x84, 0x83,
   0xde, 0xd9, 0xd0, 0xd7, 0xc2, 0xc5, 0xcc, 0xcb, 0xe6, 0xe1, 0xe8, 0xef,
   0xfa, 0xfd, 0xf4, 0xf3]

/-- One iteration of the loop of `crc8`: `crc = crc8_table[(crc^b)&0xFF]`.
The index is a byte, hence always below the 256 entries of the table (see
`crc8_index_in_range`); the default of `getD` is never used. -/
def crc8Step (crc b : Byte) : Byte :=
  crc8_table.getD ((crc ^^^ b) &&& 0xFF).val 0

/-- The method `crc8`: running value 0, one table lookup per byte, `return crc & 0xFF`. -/
def crc8 (data : List Byte) : Byte :=
  let crc := data.foldl crc8Step (0 : Byte)
  crc &&& 0xFF

/-! ### Bitwise reference CRC-8 (from the words of the specification)

Polynomial 0x07, most significant bit first, initial value 0, no reflection of
input or output, no final XOR. -/

/-- One shift of the reference CRC register: when the top bit is set the
register is shifted left (dropping the top bit) and the polynomial 0x07 is
XOR-ed in, otherwise it is only shifted. -/
def crc8RefShift (crc : Byte) : Byte :=
  if 128 ≤ crc.val then toByte (crc.val * 2) ^^^ 0x07 else toByte (crc.val * 2)

/-- The reference update for one input byte: XOR it into the register, then
eight shifts. -/
def crc8RefByte (crc b : Byte) : Byte :=
  crc8RefShift (crc8RefShift (crc8RefShift (crc8RefShift
    (crc8RefShift (crc8RefShift (crc8RefShift (crc8RefShift (crc ^^^ b))))))))

/-- The reference CRC-8 of a byte sequence (initial value 0, no final XOR). -/
def crc8Ref (data : List Byte) : Byte :=
  data.foldl crc8RefByte 0

/-- The table generated from polynomial 0x07: entry `i` is the reference
register after feeding the single byte `i` to a zero register. -/
def crc8RefTable : List Byte :=
  (List.range 256).map fun i => crc8RefByte 0 (toByte i)

/-! ## Frame codec (printer.go, lines 190-198) -/

/-- The method `formatMessage`: the six header bytes, then the payload
appended byte by byte, then the checksum of the payload, then 0xFF. -/
def formatMessage (command : Byte) (data : List Byte) : List Byte :=
  let data2 : List Byte := [0x51, 0x78, command, 0x00, toByte data.length, 0x00]
  let data2 := data.foldl (fun acc b => acc ++ [b]) data2
  let data2 := data2 ++ [crc8 data]
  let data2 := data2 ++ [0xFF]
  data2

/-! ## Rasters (Go's `image.RGBA` and `color.RGBA`) -/

/-- Go's `color.RGBA`: four stored 8-bit channels. -/
structure RGBA where
  R : Byte
  G : Byte
  B : Byte
  A : Byte
deriving DecidableEq, Repr

/-- Go's accessor `color.RGBA.RGBA()`: every channel is widened to 16 bits,
`r = uint32(c.R); r |= r << 8`, and the four `uint32` values are returned. -/
def RGBA.RGBA (c : RGBA) : Nat × Nat × Nat × Nat :=
  let r := c.R.val
  let r := r ||| (r <<< 8)
  let g := c.G.val
  let g := g ||| (g <<< 8)
  let b := c.B.val
  let b := b ||| (b <<< 8)
  let a := c.A.val
  let a := a ||| (a <<< 8)
  (r, g, b, a)

/-- A raster, Go's `*image.RGBA`: a `Dx` by `Dy` grid of stored RGBA pixels
placed in the plane by its bounds rectangle `Rect`, whose corner `Rect.Min` is
`(MinX, MinY)` and whose corner `Rect.Max` is `(MinX + Dx, MinY + Dy)` (a
well-formed rectangle, `Min <= Max`, as `image.Rect` and `SubImage` make them).
`pix i j` is the stored pixel of column `i`, row `j` of the grid (Go keeps it
at `Pix[(y - Rect.Min.Y) * Stride + (x - Rect.Min.X) * 4]` for the point
`(x, y) = (MinX + i, MinY + j)`). `image.NewRGBA(image.Rect(0, 0, w, h))` makes
a raster with `MinX = MinY = 0`; `SubImage` makes rasters with other corners. -/
structure Image where
  MinX : Int
  MinY : Int
  Dx : Nat
  Dy : Nat
  pix : Nat → Nat → RGBA

/-- Go's `(*image.RGBA).RGBAAt(x, y)` on absolute coordinates: when the point
lies in the bounds (`Rect.Min.X <= x < Rect.Max.X` and
`Rect.Min.Y <= y < Rect.Max.Y`) the stored pixel of that point, the zero
colour otherwise. -/
def Image.RGBAAt (img : Image) (x y : Int) : RGBA :=
  if img.MinX ≤ x ∧ x < img.MinX + (img.Dx : Int) ∧ img.MinY ≤ y ∧ y < img.MinY + (img.Dy : Int)
  then img.pix (x - img.MinX).toNat (y - img.MinY).toNat
  else ⟨0, 0, 0, 0⟩

/-! ## Bitmap encoder (printer.go, lines 126-149) -/

/-- The test of line 139 on the values returned by the accessor:
`r < 0x80 && g < 0x80 && b < 0x80 && a > 0x80`. -/
def paintTest (c : RGBA) : Bool :=
  let (r, g, b, a) := c.RGBA
  decide (r < 0x80) && decide (g < 0x80) && decide (b < 0x80) && decide (a > 0x80)

/-- The body of the inner loop (lines 132-144) for the loop counters `x` and
`y`, on the loop state `(bmp, bit)`. The counters run from 0 and are passed to
`RGBAAt` as they are, as absolute coordinates. The index `bit/8` is always inside `bmp` (see
`rowLoop_index_in_range`), so `List.set` never misses and the default of `getD`
is never used. -/
def pixelStep (img : Image) (y : Nat) (st : List Byte × Nat) (x : Nat) : List Byte × Nat :=
  let bmp := st.1
  let bit := st.2
  let bmp := if bit % 8 = 0 then bmp ++ [0] else bmp
  let colorPint := img.RGBAAt (x : Int) (y : Int)
  let bmp := bmp.set (bit / 8) (bmp.getD (bit / 8) 0 >>> 1)
  let bmp :=
    if paintTest colorPint then bmp.set (bit / 8) (bmp.getD (bit / 8) 0 ||| 0x80)
    else bmp.set (bit / 8) (bmp.getD (bit / 8) 0 ||| 0)
  (bmp, bit + 1)

/-- The inner loop run over the columns `0 .. n-1` of row `y`, from the state
`bmp = []`, `bit = 0`. -/
def rowLoop (img : Image) (y n : Nat) : List Byte × Nat :=
  (List.range n).foldl (pixelStep img y) ([], 0)

/-- The method `generateBitMapFromImage`: for `y = 0 .. Dy-1` the inner loop
over `x = 0 .. Dx-1` builds `bmp`, which is appended to `result`. -/
def generateBitMapFromImage (img : Image) : List (List Byte) :=
  (List.range img.Dy).foldl (fun result y => result ++ [(rowLoop img y img.Dx).1]) []

/-- Bit `i` of byte `g` of the row under construction after `n` columns of row
`y` have gone through the inner loop: group `g` has received
`k = min 8 (n - 8*g)` colours so far, read at the points `(x, y)` for the
counters `x` of the group, and they sit in the top `k` bits, the earliest
lowest. -/
def rowBit (img : Image) (y n g i : Nat) : Bool :=
  decide (8 * g < n) && decide (i < 8) && decide (8 ≤ i + min 8 (n - 8 * g)) &&
    paintTest (img.RGBAAt ((8 * g + i + min 8 (n - 8 * g) - 8 : Nat) : Int) (y : Int))

/-! ## The outside world -/

/-- A Go `error` value. -/
inductive Error where
  | errno (code : Nat)
  | other (msg : String)
deriving DecidableEq, Repr

/-- An effect on the outside world, in the order the program performs them. -/
inductive Effect where
  | write (fd : Int) (p : List Byte)
  | sleep (nanoseconds : Nat)
deriving DecidableEq, Repr

/-- What the operating system answers: the result of `unix.Socket`, of
`unix.Connect` on a descriptor and a 6-byte address, and whether the `k`-th
call of `unix.Write` (counted from 0) returns an error. -/
structure OS where
  socket : Except Error Int
  connect : Int → List Byte → Option Error
  writeErr : Nat → Bool

/-- The frames handed to `unix.Write`, in order. -/
def frames (tr : List Effect) : List (List Byte) :=
  tr.filterMap fun e =>
    match e with
    | Effect.write _ p => some p
    | Effect.sleep _ => none

/-- The call `unix.Write(fd, p)`: the write is recorded in the trace and the
answer of the operating system for this call is returned. -/
def unixWrite (os : OS) (tr : List Effect) (fd : Int) (p : List Byte) : List Effect × Bool :=
  (tr ++ [Effect.write fd p], os.writeErr (frames tr).length)

/-- The call `time.Sleep(d)`. -/
def timeSleep (tr : List Effect) (d : Nat) : List Effect :=
  tr ++ [Effect.sleep d]

/-! ## Print session (printer.go, lines 41-102 and 151-157) -/

/-- The struct `Printer`. -/
structure Printer where
  debug : Bool
  fd : Int
  fontSize : Int
  fontPath : String
deriving DecidableEq, Repr

/-- The struct `OptionConnect`; the address string is its byte sequence. -/
structure OptionConnect where
  AddrPrinter : List Byte
  DomainConnect : Int
  TypeConnect : Int
  ProtoConnect : Int
  PowerPrinter : Byte
  QualityPrinter : Byte
  DrawingModePrinter : Byte

/-- The method `sendCommand`: format the frame, write it, and return whether
or not the write failed. -/
def sendCommand (os : OS) (p : Printer) (tr : List Effect) (command : Byte)
    (data : List Byte) : List Effect :=
  let commandMessage := formatMessage command data
  let (tr, err) := unixWrite os tr p.fd commandMessage
  if err then tr else tr

/-- The body of the loop of `PrintImage` (lines 96-98) for one bitmap row. -/
def printRow (os : OS) (p : Printer) (tr : List Effect) (bmp : List Byte) : List Effect :=
  let tr := sendCommand os p tr commandDrawBitmap bmp
  let tr := sendCommand os p tr commandFeedPaper [0x00]
  timeSleep tr (4 * 1000000)

/-- The method `PrintImage`: the returned error (always `nil`, here `none`)
and the trace after the call. -/
def PrintImage (os : OS) (p : Printer) (tr : List Effect) (img : Image) :
    Option Error × List Effect :=
  let bmps := generateBitMapFromImage img
  let tr := bmps.foldl (printRow os p) tr
  let tr := sendCommand os p tr commandFeedPaper [0x50]
  (none, tr)

/-! ## Address parsing (printer.go, lines 200-208) -/

/-- Go's `strings.Split(s, ":")`: the pieces between the colons (byte 0x3A);
a string without colon, also the empty one, gives one piece. -/
def splitColon : List Byte → List (List Byte)
  | [] => [[]]
  | c :: cs =>
    if c = 0x3A then [] :: splitColon cs
    else
      match splitColon cs with
      | [] => [[c]]
      | g :: gs => (c :: g) :: gs

/-- The two errors of `strconv.ParseUint`. -/
inductive NumError where
  | syntaxErr
  | rangeErr
deriving DecidableEq, Repr

/-- Go's `lower(c)` of package strconv: `c | ('x' - 'X')`. -/
def lower (c : Byte) : Byte := c ||| 0x20

/-- The digit loop of `strconv.ParseUint(s, 16, 8)` on the remaining bytes with
running value `n` (a `uint64`): `cutoff = maxUint64/16 + 1`, `maxVal = 255`. -/
def parseUintLoop : List Byte → Nat → Nat × Option NumError
  | [], n => (n, none)
  | c :: cs, n =>
    let d? : Option Nat :=
      if 0x30 ≤ c.val ∧ c.val ≤ 0x39 then some (c.val - 0x30)
      else if 0x61 ≤ (lower c).val ∧ (lower c).val ≤ 0x7A then some ((lower c).val - 0x61 + 10)
      else none
    match d? with
    | none => (0, some NumError.syntaxErr)
    | some d =>
      if d ≥ 16 then (0, some NumError.syntaxErr)
      else if n ≥ (2 ^ 64 - 1) / 16 + 1 then (255, some NumError.rangeErr)
      else
        let n := n * 16
        let n1 := (n + d) % 2 ^ 64
        if n1 < n ∨ n1 > 255 then (255, some NumError.rangeErr)
        else parseUintLoop cs n1

/-- Go's `strconv.ParseUint(s, 16, 8)`: value and error. -/
def ParseUint (s : List Byte) : Nat × Option NumError :=
  if s = [] then (0, some NumError.syntaxErr) else parseUintLoop s 0

/-- The body of the loop of `str2ba` for the piece `tmp` at index `i`:
`b[len(b)-1-i] = byte(u)`. The result is `none` when the index is out of
range, where Go panics. -/
def str2baStep (b : Option (List Byte)) (it : Nat × List Byte) : Option (List Byte) :=
  match b with
  | none => none
  | some b =>
    let i := it.1
    let tmp := it.2
    let u := (ParseUint tmp).1
    let idx : Int := (b.length : Int) - 1 - (i : Int)
    if 0 ≤ idx ∧ idx < (b.length : Int) then some (b.set idx.toNat (toByte u)) else none

/-- The function `str2ba`: the 6-byte array, or `none` for Go's index out of
range panic. -/
def str2ba (addr : List Byte) : Option (List Byte) :=
  let a := splitColon addr
  let b : List Byte := List.replicate 6 0
  a.enum.foldl str2baStep (some b)

/-! ## Connecting (printer.go, lines 48-70) -/

/-- How a call ends: with a value, with a returned `error`, or in a panic. -/
inductive Outcome (α : Type) where
  | ok (value : α)
  | error (err : Error)
  | panic

/-- The function `NewPrinter`: how the call ends and the trace after it. -/
def NewPrinter (os : OS) (option : OptionConnect) (tr : List Effect) :
    Outcome Printer × List Effect :=
  match os.socket with
  | Except.error err => (Outcome.error err, tr)
  | Except.ok fd =>
    match str2ba option.AddrPrinter with
    | none => (Outcome.panic, tr)
    | some addr =>
      match os.connect fd addr with
      | some err => (Outcome.error err, tr)
      | none =>
        let p : Printer := ⟨false, fd, 0, ""⟩
        let tr := sendCommand os p tr commandSetEnergy [option.PowerPrinter]
        let tr := sendCommand os p tr commandSetQuality [option.QualityPrinter]
        let tr := sendCommand os p tr commandDrawingMode [option.DrawingModePrinter]
        (Outcome.ok p, tr)

/-! ## Sample rasters -/

/-- An 8 by 1 raster with bounds (0,0)-(8,1) whose first pixel is opaque black
and whose other pixels are white. -/
def firstBlackImage : Image :=
  ⟨0, 0, 8, 1, fun x _ => if x = 0 then ⟨0, 0, 0, 255⟩ else ⟨255, 255, 255, 255⟩⟩

/-- An 8 by 1 raster of opaque black pixels, with bounds (0,0)-(8,1). -/
def blackImage : Image := ⟨0, 0, 8, 1, fun _ _ => ⟨0, 0, 0, 255⟩⟩

/-- An 8 by 1 raster of white pixels, with bounds (0,0)-(8,1). -/
def whiteImage : Image := ⟨0, 0, 8, 1, fun _ _ => ⟨255, 255, 255, 255⟩⟩

/-- A 1 by 1 raster holding the single pixel `c`, with bounds (0,0)-(1,1). -/
def onePixelImage (c : RGBA) : Image := ⟨0, 0, 1, 1, fun _ _ => c⟩

/-- An 8 by 1 raster of opaque black pixels whose bounds are (2,0)-(10,1), as
`SubImage` makes them. -/
def offsetBlackImage : Image := ⟨2, 0, 8, 1, fun _ _ => ⟨0, 0, 0, 255⟩⟩

/-- An 8 by 1 raster with bounds (2,0)-(10,1) whose first pixel is opaque black
and whose other pixels are white. -/
def offsetFirstBlackImage : Image :=
  ⟨2, 0, 8, 1, fun x _ => if x = 0 then ⟨0, 0, 0, 255⟩ else ⟨255, 255, 255, 255⟩⟩

/-! ## Rendering of addresses (used to state the properties of `str2ba`) -/

/-- The ASCII hexadecimal digit of a value below 16: `0`-`9`, then `A`-`F` when
`up` and `a`-`f` otherwise. -/
def hexDigit (up : Bool) (n : Nat) : Byte :=
  if n < 10 then toByte (0x30 + n)
  else if up then toByte (0x41 + (n - 10))
  else toByte (0x61 + (n - 10))

/-- The two-digit hexadecimal rendering of a byte, the case of each digit
chosen separately. -/
def hex2 (upHi upLo : Bool) (b : Byte) : List Byte :=
  [hexDigit upHi (b.val / 16), hexDigit upLo (b.val % 16)]

/-- The pieces joined by colons (byte 0x3A). -/
def joinColon : List (List Byte) → List Byte
  | [] => []
  | [g] => g
  | g :: g2 :: gs => g ++ [0x3A] ++ joinColon (g2 :: gs)

/-- The byte sequence of an ASCII string. -/
def ascii (s : String) : List Byte :=
  s.toList.map fun c => toByte c.toNat

/-- The address string of the specification's example. -/
def sampleAddr : List Byte := ascii "AA:BB:CC:DD:EE:FF"

/-! ## Sample session -/

/-- An operating system on which every call succeeds; the socket is descriptor 3. -/
def quietOS : OS := ⟨Except.ok 3, fun _ _ => none, fun _ => false⟩

/-- The printer value `NewPrinter` returns on `quietOS`. -/
def samplePrinter : Printer := ⟨false, 3, 0, ""⟩

/-- The connect options of the specification's scenario: power 0xFF, quality 3,
mode 1. -/
def sampleOption : OptionConnect := ⟨sampleAddr, 0, 0, 0, 0xFF, 3, 1⟩

/-- A raster 2041 pixels wide and 1 pixel high, all pixels transparent. -/
def wideImage : Image := ⟨0, 0, 2041, 1, fun _ _ => ⟨0, 0, 0, 0⟩⟩

/-! ## The frame invariant of the specification -/

/-- The invariant `length == len(payload)`, frame size `= 6 + length + 2`: the
byte at offset 4 is the number of bytes the frame carries between the 6-byte
header and the 2-byte trailer. -/
def FrameInvariant (f : List Byte) : Prop :=
  f.length = 6 + (f.getD 4 0).val + 2

instance (f : List Byte) : Decidable (FrameInvariant f) := by
  unfold FrameInvariant
  exact inferInstance

/-! ## Text printing (printer.go, lines 25-28, 72-90 and 104-125) -/

/-- Go's `strings.Split(s, sep)` for a separator `sep` of one byte: the pieces
between the separators; a string without separator, also the empty one, gives
one piece. -/
def splitOnByte (sep : Byte) : List Byte → List (List Byte)
  | [] => [[]]
  | c :: cs =>
    if c = sep then [] :: splitOnByte sep cs
    else
      match splitOnByte sep cs with
      | [] => [[c]]
      | g :: gs => (c :: g) :: gs

/-- The struct `OptionPrint`; the font path is its byte sequence. -/
structure OptionPrint where
  FontSize : Int
  FontPath : List Byte

/-- Modelled from the spec: the parameter record `text2img.Params` of the
package `pkg/text2img`, which is not among the sources. Its fields are the ones
the call in `generateImageFromText` sets; `FontSize` is a `float64` there and
holds the integer font size. -/
structure Params where
  FontPath : List Byte
  TextColor : RGBA
  BackgroundColor : RGBA
  FontSize : Int
  Height : Int
  Width : Int
  TextPosHorizontal : Int
  TextPosVertical : Int
deriving DecidableEq

/-- Modelled from the spec: the external text rasterizer (package
`pkg/text2img`, not among the sources), which produces an RGBA raster from a
string and font parameters or fails. `NewDrawer` makes a drawer from the
parameters or returns an error; `Draw` renders a string with a drawer or
returns an error. Nothing else is assumed about either. -/
structure Text2Img where
  Drawer : Type
  NewDrawer : Params → Except Error Drawer
  Draw : Drawer → List Byte → Except Error Image

/-- The parameters `generateImageFromText` passes to `text2img.NewDrawer`
(lines 105-114): text colour opaque black, background transparent, height the
font size, width `len(text) * 16`. -/
def textParams (text : List Byte) (option : OptionPrint) : Params :=
  ⟨option.FontPath, ⟨0, 0, 0, 255⟩, ⟨0, 0, 0, 0⟩, option.FontSize, option.FontSize,
    (text.length : Int) * 16, 0, 0⟩

/-- The method `generateImageFromText`: make a drawer, draw the text; the
first error is returned. -/
def generateImageFromText (r : Text2Img) (text : List Byte) (option : OptionPrint) :
    Except Error Image :=
  match r.NewDrawer (textParams text option) with
  | Except.error err => Except.error err
  | Except.ok d =>
    match r.Draw d text with
    | Except.error err => Except.error err
    | Except.ok img => Except.ok img

/-- The outer loop of `PrintText` (lines 75-87) over the remaining lines: the
error that ended the loop early, if any, and the trace. -/
def printTextLoop (os : OS) (r : Text2Img) (p : Printer) (option : OptionPrint) :
    List (List Byte) → List Effect → Option Error × List Effect
  | [], tr => (none, tr)
  | text :: rest, tr =>
    match generateImageFromText r text option with
    | Except.error err => (some err, tr)
    | Except.ok img =>
      let bmps := generateBitMapFromImage img
      let tr := bmps.foldl (printRow os p) tr
      printTextLoop os r p option rest tr

/-- The method `PrintText`: the returned error (`none` for `nil`) and the
trace after the call. -/
def PrintText (os : OS) (r : Text2Img) (p : Printer) (tr : List Effect) (text : List Byte)
    (option : OptionPrint) : Option Error × List Effect :=
  let texts := splitOnByte 0x0A text
  match printTextLoop os r p option texts tr with
  | (some err, tr) => (some err, tr)
  | (none, tr) =>
    let tr := sendCommand os p tr commandFeedPaper [0x50]
    (none, tr)

/-- The Go string of a text: the UTF-8 encoding of its characters. -/
def goString (s : String) : List Byte :=
  s.toList.flatMap fun c => (String.utf8EncodeChar c).map fun b => toByte b.toNat

/-- The one-character text consisting of the letter e with acute accent
(U+00E9), whose UTF-8 encoding has two bytes. -/
def accentedText : String := String.singleton (Char.ofNat 0xE9)

/-- A rasterizer for examples: it refuses an empty line (width 0) and renders
every other line as an all-black raster of the requested size. -/
def sampleText2Img : Text2Img :=
  ⟨Params,
    fun q => if q.Width = 0 then Except.error (Error.other "empty line") else Except.ok q,
    fun q _ => Except.ok ⟨0, 0, q.Width.toNat, q.Height.toNat, fun _ _ => ⟨0, 0, 0, 255⟩⟩⟩

/-- Print options for examples: font size 2. -/
def sampleOptionPrint : OptionPrint := ⟨2, ascii "./media/default.ttf"⟩

/-! ## Inverse of the checksum table (used to show that it is a permutation) -/

/-- The position of a byte value in `crc8_table`. -/
def crc8TableIndex (v : Byte) : Byte :=
  toByte (crc8_table.indexOf v)

/-! ## Sample addresses -/

/-- The address string "AA:BB", of two groups. -/
def shortAddr : List Byte := ascii "AA:BB"

/-- The address string "1:2:3:4:5:6:7", of seven groups. -/
def longAddr : List Byte := ascii "1:2:3:4:5:6:7"

/-! # Properties -/

/-! ## Checksum -/

set_option maxRecDepth 100000 in
/-- Masking a byte with 0xFF changes nothing. -/
theorem byte_and_ff : ∀ v : Byte, v &&& 0xFF = v := by decide

set_option maxRecDepth 100000 in
/-- XOR with the zero byte changes nothing. -/
theorem byte_zero_xor : ∀ v : Byte, (0 : Byte) ^^^ v = v := by decide

set_option maxRecDepth 100000 in
/-- The table has 256 entries. -/
theorem crc8_table_length : crc8_table.length = 256 := by decide

set_option maxRecDepth 100000 in
/-- The literal table is the table generated from polynomial 0x07. -/
theorem crc8_table_eq_ref : crc8_table = crc8RefTable := by decide

/-- The index used by `crc8` is always inside the table. -/
theorem crc8_index_in_range (crc b : Byte) :
    ((crc ^^^ b) &&& 0xFF).val < crc8_table.length := by
  rw [crc8_table_length]
  exact ((crc ^^^ b) &&& 0xFF).isLt

set_option maxRecDepth 100000 in
/-- Every entry of the literal table is the reference register after the
single byte of its index. -/
theorem crc8_table_entry : ∀ i : Byte, crc8_table.getD i.val 0 = crc8RefByte 0 i := by
  decide

/-- The table lookup of `crc8` and the eight reference shifts agree on every
running value and input byte. -/
theorem crc8Step_eq_ref (crc b : Byte) : crc8Step crc b = crc8RefByte crc b := by
  unfold crc8Step
  rw [byte_and_ff, crc8_table_entry]
  unfold crc8RefByte
  rw [byte_zero_xor]

/-- The checksum is the plain left fold of the table step. -/
theorem crc8_eq_foldl (d : List Byte) : crc8 d = d.foldl crc8Step 0 := by
  unfold crc8
  exact byte_and_ff _

/-- The generic fact behind C2: both folds agree from every start value. -/
theorem foldl_crc8Step_eq_ref (d : List Byte) (crc : Byte) :
    d.foldl crc8Step crc = d.foldl crc8RefByte crc := by
  induction d generalizing crc with
  | nil => simp only [List.foldl_nil]
  | cons b bs ih => simp only [List.foldl_cons, crc8Step_eq_ref, ih]

/-- The standard check input "123456789" has CRC-8 0xF4. -/
theorem crc8_check_value :
    crc8 [0x31, 0x32, 0x33, 0x34, 0x35, 0x36, 0x37, 0x38, 0x39] = 0xF4 := by decide

/-- C2: for every byte sequence the table-driven `crc8` equals the bitwise
reference CRC-8 (polynomial 0x07, initial value 0, no reflection, no final
XOR); the embedded table is exactly the table generated from the polynomial;
and the empty sequence yields 0. -/
theorem crc8_refines_reference :
    (∀ d : List Byte, crc8 d = crc8Ref d) ∧ crc8_table = crc8RefTable ∧ crc8 [] = 0 := by
  refine ⟨fun d => ?_, crc8_table_eq_ref, by decide⟩
  rw [crc8_eq_foldl, foldl_crc8Step_eq_ref, crc8Ref]

/-! ## Frame codec -/

/-- Appending the elements of a list one by one appends the list. -/
theorem foldl_append_singleton (d init : List Byte) :
    d.foldl (fun acc b => acc ++ [b]) init = init ++ d := by
  induction d generalizing init with
  | nil => simp
  | cons b bs ih => simp [ih]

/-- The closed form of a frame, for a payload of any length. -/
theorem formatMessage_eq (c : Byte) (d : List Byte) :
    formatMessage c d = [0x51, 0x78, c, 0x00, toByte d.length, 0x00] ++ d ++ [crc8 d, 0xFF] := by
  unfold formatMessage
  simp [foldl_append_singleton]

/-- C1: for a payload of at most 255 bytes the frame is exactly the header
`[0x51, 0x78, c, 0x00, len(d), 0x00]`, the payload, the checksum of the payload
alone and 0xFF; its length is `6 + len(d) + 2`. -/
theorem formatMessage_layout (c : Byte) (d : List Byte) (h : d.length ≤ 255) :
    formatMessage c d
        = [0x51, 0x78, c, 0x00, (⟨d.length, by omega⟩ : Byte), 0x00] ++ d ++ [crc8 d, 0xFF]
      ∧ (formatMessage c d).length = 6 + d.length + 2 := by
  have hb : toByte d.length = (⟨d.length, by omega⟩ : Byte) := by
    apply Fin.ext
    show d.length % 256 = d.length
    omega
  rw [formatMessage_eq, hb]
  refine ⟨rfl, ?_⟩
  simp
  omega

/-- Witness of C1: the feed-paper frame with the one-byte payload `[0x50]`. -/
theorem formatMessage_layout_witness :
    formatMessage 0xA1 [0x50] = [0x51, 0x78, 0xA1, 0x00, 0x01, 0x00, 0x50, crc8 [0x50], 0xFF]
      ∧ (formatMessage 0xA1 [0x50]).length = 9 :=
  formatMessage_layout 0xA1 [0x50] (by decide)

/-! ## Bitmap encoder -/

/-- A byte has no bit at position 8 or above. -/
theorem byte_testBit_high (v : Byte) (i : Nat) (h : 8 ≤ i) : v.val.testBit i = false := by
  apply Nat.testBit_lt_two_pow
  calc v.val < 256 := v.isLt
    _ = 2 ^ 8 := by norm_num
    _ ≤ 2 ^ i := Nat.pow_le_pow_right (by norm_num) h

/-- The bits of a byte after `>>= 1` and `|= 0x80`. -/
theorem testBit_shr_or_on (v : Byte) (i : Nat) :
    ((v >>> 1) ||| 0x80).val.testBit i = (decide (i = 7) || v.val.testBit (i + 1)) := by
  have h1 : ((v >>> 1) ||| 0x80).val = ((v.val >>> 1 % 2 ^ 8) ||| 2 ^ 7) % 2 ^ 8 := rfl
  rw [h1, Nat.testBit_mod_two_pow, Nat.testBit_or, Nat.testBit_mod_two_pow,
    Nat.testBit_shiftRight, Nat.testBit_two_pow]
  by_cases h : i < 8
  · by_cases h7 : i = 7
    · subst h7; simp
    · have : ¬ (7 = i) := fun h => h7 h.symm
      simp [h, h7, this, Nat.add_comm]
  · have h7 : ¬ (7 = i) := by omega
    have h7b : ¬ (i = 7) := by omega
    have hv : v.val.testBit (i + 1) = false := byte_testBit_high v _ (by omega)
    simp [h, h7, h7b, hv]

/-- The bits of a byte after `>>= 1` and `|= 0`. -/
theorem testBit_shr_or_off (v : Byte) (i : Nat) :
    ((v >>> 1) ||| 0).val.testBit i = v.val.testBit (i + 1) := by
  have h1 : ((v >>> 1) ||| 0).val = ((v.val >>> 1 % 2 ^ 8) ||| 0) % 2 ^ 8 := rfl
  rw [h1, Nat.testBit_mod_two_pow, Nat.testBit_or, Nat.testBit_mod_two_pow,
    Nat.testBit_shiftRight]
  by_cases h : i < 8
  · simp [h, Nat.add_comm]
  · have hv : v.val.testBit (i + 1) = false := byte_testBit_high v _ (by omega)
    simp [h, hv]

/-- Reading a list after an in-range assignment. -/
theorem getD_set_byte (l : List Byte) (i g : Nat) (a : Byte) (h : i < l.length) :
    (l.set i a).getD g 0 = if g = i then a else l.getD g 0 := by
  simp only [List.getD_eq_getElem?_getD, List.getElem?_set, h, if_true]
  by_cases hg : g = i
  · subst hg; simp
  · have : ¬ i = g := fun h => hg h.symm
    simp [hg, this]

/-- Appending a zero byte does not change what `getD` with default 0 reads. -/
theorem getD_append_zero (l : List Byte) (g : Nat) : (l ++ [0]).getD g 0 = l.getD g 0 := by
  simp only [List.getD_eq_getElem?_getD, List.getElem?_append]
  by_cases hg : g < l.length
  · simp [hg]
  · have h1 : l[g]? = none := List.getElem?_eq_none (by omega)
    simp only [hg, if_false, h1, Option.getD_none]
    by_cases h0 : g - l.length = 0
    · simp [h0]
    · have : ([0] : List Byte)[g - l.length]? = none := List.getElem?_eq_none (by simp; omega)
      simp [this]

/-- One pass of the loop body on a state whose byte list has the length the
loop maintains. -/
theorem pixelStep_spec (img : Image) (y x : Nat) (bmp : List Byte) (bit : Nat)
    (hlen : bmp.length = (bit + 7) / 8) :
    (pixelStep img y (bmp, bit) x).2 = bit + 1 ∧
    (pixelStep img y (bmp, bit) x).1.length = (bit + 8) / 8 ∧
    ∀ g, (pixelStep img y (bmp, bit) x).1.getD g 0 =
      if g = bit / 8 then
        (if paintTest (img.RGBAAt x y) then (bmp.getD g 0 >>> 1) ||| 0x80
          else (bmp.getD g 0 >>> 1) ||| 0)
      else bmp.getD g 0 := by
  obtain ⟨bmp1, hdef, hlen1, hget1⟩ : ∃ bmp1 : List Byte,
      bmp1 = (if bit % 8 = 0 then bmp ++ [0] else bmp) ∧ bmp1.length = (bit + 8) / 8 ∧
        ∀ g, bmp1.getD g 0 = bmp.getD g 0 := by
    refine ⟨_, rfl, ?_, ?_⟩
    · by_cases h8 : bit % 8 = 0
      · simp only [h8, if_true, List.length_append, hlen, List.length_singleton]; omega
      · simp only [h8, if_false, hlen]; omega
    · intro g
      by_cases h8 : bit % 8 = 0
      · simp only [h8, if_true, getD_append_zero]
      · simp only [h8, if_false]
  have hk : bit / 8 < bmp1.length := by rw [hlen1]; omega
  have hstep : pixelStep img y (bmp, bit) x =
      (if paintTest (img.RGBAAt x y) then
          (bmp1.set (bit / 8) (bmp1.getD (bit / 8) 0 >>> 1)).set (bit / 8)
            ((bmp1.set (bit / 8) (bmp1.getD (bit / 8) 0 >>> 1)).getD (bit / 8) 0 ||| 0x80)
        else
          (bmp1.set (bit / 8) (bmp1.getD (bit / 8) 0 >>> 1)).set (bit / 8)
            ((bmp1.set (bit / 8) (bmp1.getD (bit / 8) 0 >>> 1)).getD (bit / 8) 0 ||| 0),
        bit + 1) := by
    rw [hdef]; rfl
  rw [hstep]
  have hk2 : bit / 8 < (bmp1.set (bit / 8) (bmp1.getD (bit / 8) 0 >>> 1)).length := by
    rw [List.length_set]; exact hk
  have hlen2 : bmp1.length = bit / 8 + 1 := by rw [hlen1]; omega
  refine ⟨rfl, ?_, ?_⟩
  · by_cases hp : paintTest (img.RGBAAt x y) = true
    · simp only [if_pos hp, List.length_set, hlen2]; omega
    · simp only [if_neg hp, List.length_set, hlen2]; omega
  · intro g
    by_cases hp : paintTest (img.RGBAAt x y) = true
    · simp only [if_pos hp]
      rw [getD_set_byte _ _ _ _ hk2]
      simp only [getD_set_byte _ _ _ _ hk, hget1, if_true]
      by_cases hg : g = bit / 8
      · simp only [hg, if_true]
      · simp only [hg, if_false]
    · simp only [if_neg hp]
      rw [getD_set_byte _ _ _ _ hk2]
      simp only [getD_set_byte _ _ _ _ hk, hget1, if_true]
      by_cases hg : g = bit / 8
      · simp only [hg, if_true]
      · simp only [hg, if_false]

/-- One more column leaves the bytes of the other groups alone. -/
theorem rowBit_succ_other (img : Image) (y n g i : Nat) (hg : g ≠ n / 8) :
    rowBit img y (n + 1) g i = rowBit img y n g i := by
  unfold rowBit
  by_cases h : g < n / 8
  · have e1 : min 8 (n + 1 - 8 * g) = 8 := by omega
    have e2 : min 8 (n - 8 * g) = 8 := by omega
    have e3 : 8 * g < n + 1 := by omega
    have e4 : 8 * g < n := by omega
    simp only [e1, e2, e3, e4]
  · have e3 : ¬ 8 * g < n + 1 := by omega
    have e4 : ¬ 8 * g < n := by omega
    simp only [e3, e4, decide_False, Bool.false_and]

/-- One more column shifts the bits of the current group down and puts the new
pixel on top. -/
theorem rowBit_succ_same (img : Image) (y n g i : Nat) (hg : g = n / 8) :
    rowBit img y (n + 1) g i =
      if i = 7 then paintTest (img.RGBAAt n y) else rowBit img y n g (i + 1) := by
  unfold rowBit
  have e1 : min 8 (n + 1 - 8 * g) = n + 1 - 8 * g := by omega
  have e2 : min 8 (n - 8 * g) = n - 8 * g := by omega
  have e3 : 8 * g < n + 1 := by omega
  rw [e1, e2]
  by_cases h7 : i = 7
  · have e5 : 8 * g + i + (n + 1 - 8 * g) - 8 = n := by omega
    have e6 : 8 ≤ i + (n + 1 - 8 * g) := by omega
    have e7 : i < 8 := by omega
    simp only [if_pos h7, e5, e3, e6, e7, decide_True, Bool.true_and]
  · rw [if_neg h7]
    by_cases h8 : i < 7
    · by_cases h0 : 8 * g < n
      · have e5 : 8 * g + i + (n + 1 - 8 * g) - 8 = 8 * g + (i + 1) + (n - 8 * g) - 8 := by omega
        have e6 : (8 ≤ i + (n + 1 - 8 * g)) = (8 ≤ i + 1 + (n - 8 * g)) := by
          apply propext; omega
        have e7 : i < 8 := by omega
        have e8 : i + 1 < 8 := by omega
        simp only [e5, e6, e3, h0, e7, e8]
      · have e6 : ¬ 8 ≤ i + (n + 1 - 8 * g) := by omega
        simp only [e6, h0, decide_False, Bool.false_and, Bool.and_false]
    · have e7 : ¬ i < 8 := by omega
      have e8 : ¬ i + 1 < 8 := by omega
      simp only [e7, e8, decide_False, Bool.false_and, Bool.and_false]

/-- The state of the inner loop after `n` columns: the counter, the number of
bytes, and every bit of every byte. -/
theorem rowLoop_inv (img : Image) (y n : Nat) :
    (rowLoop img y n).2 = n ∧ (rowLoop img y n).1.length = (n + 7) / 8 ∧
      ∀ g i, ((rowLoop img y n).1.getD g 0).val.testBit i = rowBit img y n g i := by
  induction n with
  | zero =>
    refine ⟨rfl, rfl, fun g i => ?_⟩
    simp [rowLoop, rowBit]
  | succ n ih =>
    obtain ⟨ih2, ihlen, ihbit⟩ := ih
    have hsucc : rowLoop img y (n + 1) = pixelStep img y ((rowLoop img y n).1, n) n := by
      unfold rowLoop
      rw [List.range_succ, List.foldl_append]
      simp only [List.foldl_cons, List.foldl_nil]
      congr 1
      exact Prod.ext rfl ih2
    obtain ⟨s2, slen, sget⟩ := pixelStep_spec img y n (rowLoop img y n).1 n ihlen
    rw [hsucc]
    refine ⟨s2, ?_, fun g i => ?_⟩
    · rw [slen]
    · rw [sget]
      by_cases hg : g = n / 8
      · rw [if_pos hg]
        by_cases hp : paintTest (img.RGBAAt n y) = true
        · rw [if_pos hp, testBit_shr_or_on, ihbit, rowBit_succ_same img y n g i hg]
          by_cases h7 : i = 7
          · simp [h7, hp]
          · simp [h7]
        · rw [if_neg hp, testBit_shr_or_off, ihbit, rowBit_succ_same img y n g i hg]
          by_cases h7 : i = 7
          · have hp2 : paintTest (img.RGBAAt n y) = false := by simpa using hp
            rw [if_pos h7, hp2, h7]
            simp [rowBit]
          · rw [if_neg h7]
      · rw [if_neg hg, ihbit, rowBit_succ_other img y n g i hg]

/-- The integer quotient `(w + 7) / 8` is the ceiling of `w / 8`. -/
theorem ceil_div8 (w : Nat) : ⌈(w : ℚ) / 8⌉₊ = (w + 7) / 8 := by
  apply le_antisymm
  · rw [Nat.ceil_le]
    rw [div_le_iff₀ (by norm_num)]
    have : w ≤ (w + 7) / 8 * 8 := by omega
    exact_mod_cast this
  · by_contra h
    push_neg at h
    have h2 : ⌈(w : ℚ) / 8⌉₊ + 1 ≤ (w + 7) / 8 := h
    have h3 : (w : ℚ) / 8 ≤ ⌈(w : ℚ) / 8⌉₊ := Nat.le_ceil _
    rw [div_le_iff₀ (by norm_num)] at h3
    have h4 : w ≤ ⌈(w : ℚ) / 8⌉₊ * 8 := by exact_mod_cast h3
    omega

/-- A loop that appends one computed element per iteration builds a map. -/
theorem foldl_append_map {α β : Type} (f : α → β) (l : List α) (init : List β) :
    l.foldl (fun result y => result ++ [f y]) init = init ++ l.map f := by
  induction l generalizing init with
  | nil => simp
  | cons a as ih => simp [ih]

/-- The outer loop returns, for `y = 0 .. Dy-1` in this order, the byte list the
inner loop builds for row `y`. -/
theorem generateBitMapFromImage_eq_map (img : Image) :
    generateBitMapFromImage img = (List.range img.Dy).map fun y => (rowLoop img y img.Dx).1 := by
  unfold generateBitMapFromImage
  rw [foldl_append_map]
  simp

/-- C5: the encoder returns exactly `Dy` rows, every row has exactly
`ceil(Dx/8)` bytes, and the rows come in increasing `y` order: row `y` of the
result is what the inner loop builds from row `y` of the raster. -/
theorem generateBitMapFromImage_shape (img : Image) :
    (generateBitMapFromImage img).length = img.Dy ∧
      (generateBitMapFromImage img).map List.length
        = List.replicate img.Dy ⌈(img.Dx : ℚ) / 8⌉₊ ∧
      generateBitMapFromImage img
        = (List.range img.Dy).map fun y => (rowLoop img y img.Dx).1 := by
  refine ⟨?_, ?_, generateBitMapFromImage_eq_map img⟩
  · simp [generateBitMapFromImage_eq_map]
  · rw [generateBitMapFromImage_eq_map, ceil_div8, List.map_map]
    apply List.ext_get
    · simp
    · intro n h1 h2
      simp [(rowLoop_inv img _ img.Dx).2.1]

/-- Every bit of every row the encoder returns. -/
theorem generateBitMapFromImage_bit (img : Image) (y g i : Nat) (hy : y < img.Dy) :
    (((generateBitMapFromImage img).getD y []).getD g 0).val.testBit i
      = rowBit img y img.Dx g i := by
  have hrow : (generateBitMapFromImage img).getD y [] = (rowLoop img y img.Dx).1 := by
    rw [generateBitMapFromImage_eq_map]
    simp [List.getD_eq_getElem?_getD, List.getElem?_range hy]
  rw [hrow]
  exact (rowLoop_inv img y img.Dx).2.2 g i

set_option maxRecDepth 100000 in
/-- The 16-bit widening `v | v << 8` of a byte is below 0x80 only for 0 and
above 0x80 for everything else. -/
theorem byte_widen_threshold : ∀ v : Byte, (v.val ||| v.val <<< 8 < 0x80 ↔ v = 0) ∧
    (v.val ||| v.val <<< 8 > 0x80 ↔ v ≠ 0) := by decide

/-- What the test of line 139 accepts, in terms of the stored channels: the
accessor returns `257 * channel`, so a colour channel passes `< 0x80` only when
it is 0 and alpha passes `> 0x80` as soon as it is not 0. -/
theorem paintTest_iff (c : RGBA) :
    paintTest c = true ↔ c.R = 0 ∧ c.G = 0 ∧ c.B = 0 ∧ c.A ≠ 0 := by
  obtain ⟨r, g, b, a⟩ := c
  have key : ∀ v : Byte, (v.val ||| v.val <<< 8 < 0x80 ↔ v = 0) ∧
      (v.val ||| v.val <<< 8 > 0x80 ↔ v ≠ 0) := byte_widen_threshold
  simp only [paintTest, RGBA.RGBA, Bool.and_eq_true, decide_eq_true_eq, (key r).1, (key g).1,
    (key b).1, (key a).2, and_assoc]

/-- For a raster whose bounds start at the origin, the colour `RGBAAt` returns
at the loop counters `(x, y)` inside the grid is the stored pixel of column
`x`, row `y`. -/
theorem RGBAAt_of_origin (img : Image) (hx0 : img.MinX = 0) (hy0 : img.MinY = 0) (x y : Nat)
    (hx : x < img.Dx) (hy : y < img.Dy) : img.RGBAAt (x : Int) (y : Int) = img.pix x y := by
  unfold Image.RGBAAt
  rw [hx0, hy0]
  have hc : (0 : Int) ≤ (x : Int) ∧ (x : Int) < 0 + (img.Dx : Int) ∧ (0 : Int) ≤ (y : Int) ∧
      (y : Int) < 0 + (img.Dy : Int) := by omega
  rw [if_pos hc]
  simp

/-- In a full group of 8 counters, for a raster with any bounds: bit `j` of
`rows[y][g]` is the paint test of the colour `RGBAAt` returns at the point
`(8g+j, y)`. -/
theorem bitmap_bit_read (img : Image) (y g j : Nat) (hy : y < img.Dy)
    (hg : 8 * g + 8 ≤ img.Dx) (hj : j < 8) :
    (((generateBitMapFromImage img).getD y []).getD g 0).val.testBit j
      = paintTest (img.RGBAAt ((8 * g + j : Nat) : Int) (y : Int)) := by
  rw [generateBitMapFromImage_bit img y g j hy]
  unfold rowBit
  have e1 : min 8 (img.Dx - 8 * g) = 8 := by omega
  have e2 : 8 * g < img.Dx := by omega
  have e3 : 8 ≤ j + 8 := by omega
  have e4 : 8 * g + j + 8 - 8 = 8 * g + j := by omega
  simp only [e1, e2, e3, e4, hj, decide_True, Bool.true_and]

/-- C3, amended: for a raster whose bounds start at the origin, in a full group
of 8 pixels the packing is least significant bit first: pixel `8g+j` of row `y`
is bit `j` of `rows[y][g]`, so bit 0 (0x01) is the first pixel of the group and
bit 7 (0x80) the last. -/
theorem bitmap_bit_order (img : Image) (y g j : Nat) (hx0 : img.MinX = 0)
    (hy0 : img.MinY = 0) (hy : y < img.Dy) (hg : 8 * g + 8 ≤ img.Dx) (hj : j < 8) :
    (((generateBitMapFromImage img).getD y []).getD g 0).val.testBit j
      = paintTest (img.pix (8 * g + j) y) := by
  rw [bitmap_bit_read img y g j hy hg hj,
    RGBAAt_of_origin img hx0 hy0 (8 * g + j) y (by omega) hy]

/-- Witness of the amended C3: the first pixel of `firstBlackImage` is bit 0. -/
theorem bitmap_bit_order_witness :
    (((generateBitMapFromImage firstBlackImage).getD 0 []).getD 0 0).val.testBit 0
      = paintTest (firstBlackImage.pix (8 * 0 + 0) 0) :=
  bitmap_bit_order firstBlackImage 0 0 0 rfl rfl (by decide) (by decide) (by decide)

/-- Counterexample to C3 as stated: in the 8 by 1 raster with bounds
(0,0)-(8,1) whose first pixel alone is black the packed byte is 0x01, so bit 7
is not the bit of the first pixel and bit 0 is not the bit of the last pixel.
In the same raster with bounds (2,0)-(10,1) the packed byte is 0x04: the first
pixel is in bit 2, neither bit 7 nor bit 0. -/
theorem bitmap_msb_first_fails :
    generateBitMapFromImage firstBlackImage = [[0x01]] ∧
      paintTest (firstBlackImage.pix 0 0) = true ∧
      (((generateBitMapFromImage firstBlackImage).getD 0 []).getD 0 0).val.testBit 7 = false ∧
      paintTest (firstBlackImage.pix 7 0) = false ∧
      (((generateBitMapFromImage firstBlackImage).getD 0 []).getD 0 0).val.testBit 0 = true ∧
      generateBitMapFromImage offsetFirstBlackImage = [[0x04]] ∧
      paintTest (offsetFirstBlackImage.pix 0 0) = true := by
  decide

/-- Every byte of a returned row is read by `getD` at an index inside the row. -/
theorem mem_row_getD (row : List Byte) (v : Byte) (hv : v ∈ row) :
    ∃ g, g < row.length ∧ row.getD g 0 = v := by
  obtain ⟨g, hg, rfl⟩ := List.mem_iff_getElem.mp hv
  exact ⟨g, hg, by simp [List.getD_eq_getElem?_getD, List.getElem?_eq_getElem hg]⟩

/-- Every returned row is the result of the inner loop on some row of the raster. -/
theorem mem_generateBitMapFromImage (img : Image) (row : List Byte)
    (hrow : row ∈ generateBitMapFromImage img) :
    ∃ y, y < img.Dy ∧ row = (rowLoop img y img.Dx).1 := by
  rw [generateBitMapFromImage_eq_map, List.mem_map] at hrow
  obtain ⟨y, hy, rfl⟩ := hrow
  exact ⟨y, List.mem_range.mp hy, rfl⟩

/-- A byte of a row whose pixels all fail the paint test is 0. -/
theorem row_byte_zero (img : Image) (y : Nat)
    (hoff : ∀ x : Int, paintTest (img.RGBAAt x (y : Int)) = false) (v : Byte)
    (hv : v ∈ (rowLoop img y img.Dx).1) : v = 0 := by
  obtain ⟨g, _, rfl⟩ := mem_row_getD _ v hv
  apply Fin.ext
  apply Nat.eq_of_testBit_eq
  intro i
  rw [(rowLoop_inv img y img.Dx).2.2 g i]
  simp [rowBit, hoff]

/-- A byte of a row of full groups whose pixels all pass the paint test is 0xFF. -/
theorem row_byte_ff (img : Image) (y : Nat) (h8 : img.Dx % 8 = 0)
    (hon : ∀ x : Nat, x < img.Dx → paintTest (img.RGBAAt (x : Int) (y : Int)) = true) (v : Byte)
    (hv : v ∈ (rowLoop img y img.Dx).1) : v = 0xFF := by
  obtain ⟨g, hg, rfl⟩ := mem_row_getD _ v hv
  rw [(rowLoop_inv img y img.Dx).2.1] at hg
  apply Fin.ext
  apply Nat.eq_of_testBit_eq
  intro i
  rw [(rowLoop_inv img y img.Dx).2.2 g i]
  have e255 : ((0xFF : Byte) : Nat) = 2 ^ 8 - 1 := rfl
  rw [e255, Nat.testBit_two_pow_sub_one]
  unfold rowBit
  have e1 : min 8 (img.Dx - 8 * g) = 8 := by omega
  have e2 : 8 * g < img.Dx := by omega
  by_cases hi : i < 8
  · have e3 : 8 ≤ i + 8 := by omega
    have e4 : 8 * g + i + 8 - 8 < img.Dx := by omega
    simp only [e1, e2, e3, hi, hon _ e4, decide_True, Bool.true_and]
  · simp only [hi, decide_False, Bool.false_and, Bool.and_false]

/-- A list of one element, all of whose elements are `a`, is `[a]`. -/
theorem singleton_of_length_one (l : List Byte) (a : Byte) (hlen : l.length = 1)
    (h : ∀ v ∈ l, v = a) : l = [a] := by
  cases l with
  | nil => simp at hlen
  | cons v vs =>
    cases vs with
    | nil => rw [h v (List.mem_singleton_self _)]
    | cons w ws => simp at hlen

/-- What holds of uniform rasters: a raster of opaque black pixels whose bounds
start at the origin and whose width is a positive multiple of 8 encodes to
bytes 0xFF only (the 8 by 1 one to the single row `[0xFF]`), and a raster of
white pixels, or of pixels of alpha 0, with any bounds encodes to bytes 0x00
only. -/
theorem uniform_rasters (img : Image) :
    (img.MinX = 0 → img.MinY = 0 → 0 < img.Dx → img.Dx % 8 = 0 →
        (∀ x y, x < img.Dx → y < img.Dy → img.pix x y = ⟨0, 0, 0, 255⟩) →
        (∀ row ∈ generateBitMapFromImage img, ∀ v ∈ row, v = 0xFF) ∧
          (img.Dx = 8 → img.Dy = 1 → generateBitMapFromImage img = [[0xFF]])) ∧
      (((∀ x y, x < img.Dx → y < img.Dy → img.pix x y = ⟨255, 255, 255, 255⟩) ∨
          (∀ x y, x < img.Dx → y < img.Dy → (img.pix x y).A = 0)) →
        ∀ row ∈ generateBitMapFromImage img, ∀ v ∈ row, v = 0x00) := by
  constructor
  · intro hx0 hy0 _ h8 hblack
    have hall : ∀ row ∈ generateBitMapFromImage img, ∀ v ∈ row, v = 0xFF := by
      intro row hrow v hv
      obtain ⟨y, hy, rfl⟩ := mem_generateBitMapFromImage img row hrow
      refine row_byte_ff img y h8 (fun x hx => ?_) v hv
      rw [RGBAAt_of_origin img hx0 hy0 x y hx hy, hblack x y hx hy]
      decide
    refine ⟨hall, fun hw hh => ?_⟩
    have hlen := (rowLoop_inv img 0 img.Dx).2.1
    have hgen : generateBitMapFromImage img = [(rowLoop img 0 img.Dx).1] := by
      rw [generateBitMapFromImage_eq_map, hh]; rfl
    have hlen1 : (rowLoop img 0 img.Dx).1.length = 1 := by rw [hlen, hw]
    have hmem := hall _ (by rw [hgen]; exact List.mem_singleton_self _)
    rw [hgen, singleton_of_length_one _ _ hlen1 hmem]
  · intro hcases row hrow v hv
    obtain ⟨y, hy, rfl⟩ := mem_generateBitMapFromImage img row hrow
    refine row_byte_zero img y (fun x => ?_) v hv
    unfold Image.RGBAAt
    by_cases hx : img.MinX ≤ x ∧ x < img.MinX + (img.Dx : Int) ∧ img.MinY ≤ (y : Int) ∧
        (y : Int) < img.MinY + (img.Dy : Int)
    · rw [if_pos hx]
      have hi : (x - img.MinX).toNat < img.Dx := by omega
      have hj : ((y : Int) - img.MinY).toNat < img.Dy := by omega
      rcases hcases with hwhite | htransparent
      · rw [hwhite _ _ hi hj]; decide
      · have hA := htransparent _ _ hi hj
        have := (paintTest_iff (img.pix (x - img.MinX).toNat ((y : Int) - img.MinY).toNat)).not
        simp only [hA, ne_eq, not_true_eq_false, and_false, not_false_eq_true, iff_true] at this
        simpa using this
    · rw [if_neg hx]; decide

/-- The black and the white 8 by 1 rasters with bounds (0,0)-(8,1) encode to
`[[0xFF]]` and to zero bytes. -/
theorem uniform_rasters_witness :
    (0 < blackImage.Dx ∧ blackImage.Dx % 8 = 0 ∧
        (∀ row ∈ generateBitMapFromImage blackImage, ∀ v ∈ row, v = 0xFF) ∧
        generateBitMapFromImage blackImage = [[0xFF]]) ∧
      (∀ row ∈ generateBitMapFromImage whiteImage, ∀ v ∈ row, v = 0x00) :=
  have hb := (uniform_rasters blackImage).1 rfl rfl (by decide) (by decide)
    (fun _ _ _ _ => rfl)
  ⟨⟨by decide, by decide, hb.1, hb.2 rfl rfl⟩,
    (uniform_rasters whiteImage).2 (Or.inl fun _ _ _ _ => rfl)⟩

/-- C9 at a failing input: the 8 by 1 raster with bounds (2,0)-(10,1), all of
whose pixels are opaque black, encodes to the single row `[0xFC]`, not
`[0xFF]`: the loop counters 0 and 1 lie left of the bounds, where `RGBAAt`
returns the zero colour, and the last two columns of the raster are never
read. -/
theorem uniform_black_offset_fails :
    offsetBlackImage.Dx = 8 ∧ offsetBlackImage.Dy = 1 ∧
      (∀ x y, offsetBlackImage.pix x y = ⟨0, 0, 0, 255⟩) ∧
      generateBitMapFromImage offsetBlackImage = [[0xFC]] :=
  ⟨rfl, rfl, fun _ _ => rfl, by decide⟩

/-- C4 at failing inputs: a pixel with stored channels (1, 0, 0, 255) has all
colour channels below 128 and alpha above 128, yet its bit is 0; a pixel with
stored channels (0, 0, 0, 1) has alpha not above 128, yet its bit is 1. -/
theorem paintTest_threshold_fails :
    generateBitMapFromImage (onePixelImage ⟨1, 0, 0, 255⟩) = [[0x00]] ∧
      generateBitMapFromImage (onePixelImage ⟨0, 0, 0, 1⟩) = [[0x80]] ∧
      generateBitMapFromImage (onePixelImage ⟨0, 0, 0, 255⟩) = [[0x80]] := by
  decide

/-! ## Print session -/

/-- The frames of a trace extended by one write. -/
theorem frames_sendCommand (os : OS) (p : Printer) (tr : List Effect) (command : Byte)
    (data : List Byte) :
    frames (sendCommand os p tr command data) = frames tr ++ [formatMessage command data] := by
  unfold sendCommand unixWrite
  by_cases h : os.writeErr (frames tr).length = true <;> simp [h, frames]

/-- Sleeping writes no frame. -/
theorem frames_timeSleep (tr : List Effect) (d : Nat) : frames (timeSleep tr d) = frames tr := by
  simp [timeSleep, frames]

/-- One pass of the loop of `PrintImage` writes the draw frame of the row and
a feed frame with payload `[0x00]`. -/
theorem frames_printRow (os : OS) (p : Printer) (tr : List Effect) (bmp : List Byte) :
    frames (printRow os p tr bmp)
      = frames tr ++ [formatMessage 0xA2 bmp, formatMessage 0xA1 [0x00]] := by
  unfold printRow
  rw [frames_timeSleep, frames_sendCommand, frames_sendCommand]
  simp [commandDrawBitmap, commandFeedPaper]

/-- The loop of `PrintImage` over any list of rows. -/
theorem frames_foldl_printRow (os : OS) (p : Printer) (bmps : List (List Byte))
    (tr : List Effect) :
    frames (bmps.foldl (printRow os p) tr)
      = frames tr ++ bmps.flatMap fun r => [formatMessage 0xA2 r, formatMessage 0xA1 [0x00]] := by
  induction bmps generalizing tr with
  | nil => simp
  | cons b bs ih => simp [ih, frames_printRow]

/-- Two frames per row. -/
theorem length_flatMap_pair (f g : List Byte → List Byte) (l : List (List Byte)) :
    (l.flatMap fun r => [f r, g r]).length = 2 * l.length := by
  induction l with
  | nil => rfl
  | cons a as ih => simp only [List.flatMap_cons, List.length_append, ih, List.length_cons,
      List.length_nil]; omega

/-- The frames `PrintImage` adds to the trace, for any raster. -/
theorem frames_PrintImage (os : OS) (p : Printer) (tr : List Effect) (img : Image) :
    frames (PrintImage os p tr img).2
      = frames tr
        ++ ((generateBitMapFromImage img).flatMap fun r =>
              [formatMessage 0xA2 r, formatMessage 0xA1 [0x00]])
        ++ [formatMessage 0xA1 [0x50]] := by
  unfold PrintImage
  simp only []
  rw [frames_sendCommand, frames_foldl_printRow]
  rfl

/-- C6: started on a connection with no frame written yet, `PrintImage` writes
exactly, for the rows `r_1 .. r_N` of the bitmap in order, the pair
`formatMessage(0xA2, r_i)`, `formatMessage(0xA1, [0x00])`, and then one
`formatMessage(0xA1, [0x50])`: `2N + 1` frames, and only the final feed when
`N = 0`. On a connection with earlier frames these follow the earlier ones. -/
theorem PrintImage_frame_sequence (os : OS) (p : Printer) (tr : List Effect) (img : Image) :
    frames (PrintImage os p tr img).2
        = frames tr
          ++ ((generateBitMapFromImage img).flatMap fun r =>
                [formatMessage 0xA2 r, formatMessage 0xA1 [0x00]])
          ++ [formatMessage 0xA1 [0x50]]
      ∧ (frames (PrintImage os p [] img).2).length = 2 * (generateBitMapFromImage img).length + 1
      ∧ (frames (PrintImage os p [] ⟨img.MinX, img.MinY, img.Dx, 0, img.pix⟩).2) = [formatMessage 0xA1 [0x50]] := by
  refine ⟨frames_PrintImage os p tr img, ?_, ?_⟩
  · rw [frames_PrintImage]
    simp only [frames, List.filterMap_nil, List.nil_append, List.length_append,
      List.length_singleton, length_flatMap_pair]
  · rw [frames_PrintImage]
    simp [frames, generateBitMapFromImage]

/-! ## Address parsing, connecting, and the frame invariant -/

/-- The example address parses to its six bytes in reversed group order. -/
theorem str2ba_sampleAddr : str2ba sampleAddr = some [0xFF, 0xEE, 0xDD, 0xCC, 0xBB, 0xAA] := by
  decide

/-- The example address is the upper-case rendering of AA, BB, CC, DD, EE, FF. -/
theorem sampleAddr_eq : sampleAddr = joinColon [hex2 true true 0xAA, hex2 true true 0xBB,
    hex2 true true 0xCC, hex2 true true 0xDD, hex2 true true 0xEE, hex2 true true 0xFF] := by
  decide

set_option maxRecDepth 100000 in
/-- No hexadecimal digit is the colon. -/
theorem hexDigit_ne_colon : ∀ up : Bool, ∀ n : Fin 16, hexDigit up n.val ≠ 0x3A := by decide

set_option maxRecDepth 1000000 in
set_option maxHeartbeats 4000000 in
/-- Parsing the two-digit rendering of a byte gives the byte back, without error. -/
theorem ParseUint_hex2 : ∀ (b : Byte) (uh ul : Bool), ParseUint (hex2 uh ul b) = (b.val, none) := by
  decide

/-- Converting the value of a byte to a byte gives the byte. -/
theorem toByte_val (b : Byte) : toByte b.val = b := by
  apply Fin.ext
  show b.val % 256 = b.val
  exact Nat.mod_eq_of_lt b.isLt

/-- Neither digit of a rendered byte is the colon. -/
theorem hexDigit_ne_colon2 (up : Bool) (b : Byte) :
    hexDigit up (b.val / 16) ≠ 0x3A ∧ hexDigit up (b.val % 16) ≠ 0x3A :=
  ⟨hexDigit_ne_colon up ⟨b.val / 16, by omega⟩, hexDigit_ne_colon up ⟨b.val % 16, by omega⟩⟩

/-- Splitting in front of a piece without colon. -/
theorem splitColon_hex2_cons (uh ul : Bool) (b : Byte) (rest : List Byte) :
    splitColon (hex2 uh ul b ++ 0x3A :: rest) = hex2 uh ul b :: splitColon rest := by
  have h1 := (hexDigit_ne_colon2 uh b).1
  have h2 := (hexDigit_ne_colon2 ul b).2
  simp [hex2, splitColon, h1, h2]

/-- Splitting a single rendered byte. -/
theorem splitColon_hex2 (uh ul : Bool) (b : Byte) :
    splitColon (hex2 uh ul b) = [hex2 uh ul b] := by
  have h1 := (hexDigit_ne_colon2 uh b).1
  have h2 := (hexDigit_ne_colon2 ul b).2
  simp [hex2, splitColon, h1, h2]

/-- The array `str2ba` returns for six rendered bytes joined by colons. -/
theorem str2ba_hex_groups (b0 b1 b2 b3 b4 b5 : Byte) (u : Nat → Bool) :
    str2ba (joinColon [hex2 (u 0) (u 1) b0, hex2 (u 2) (u 3) b1, hex2 (u 4) (u 5) b2,
        hex2 (u 6) (u 7) b3, hex2 (u 8) (u 9) b4, hex2 (u 10) (u 11) b5])
      = some [b5, b4, b3, b2, b1, b0] := by
  unfold str2ba
  simp only [joinColon, List.append_assoc, List.singleton_append, splitColon_hex2_cons,
    splitColon_hex2]
  simp [List.enum, List.enumFrom, str2baStep, ParseUint_hex2, toByte_val]

/-- C8: for all bytes `b0 .. b5`, rendered as two hexadecimal digits each (every
digit in upper or lower case, as `u` says) and joined by colons in the order
`b0:b1:b2:b3:b4:b5`, `str2ba` returns the array `[b5, b4, b3, b2, b1, b0]`; and
"AA:BB:CC:DD:EE:FF" gives `[0xFF, 0xEE, 0xDD, 0xCC, 0xBB, 0xAA]`. -/
theorem str2ba_reverses (b0 b1 b2 b3 b4 b5 : Byte) (u : Nat → Bool) :
    str2ba (joinColon [hex2 (u 0) (u 1) b0, hex2 (u 2) (u 3) b1, hex2 (u 4) (u 5) b2,
        hex2 (u 6) (u 7) b3, hex2 (u 8) (u 9) b4, hex2 (u 10) (u 11) b5])
      = some [b5, b4, b3, b2, b1, b0]
    ∧ str2ba (ascii "AA:BB:CC:DD:EE:FF") = some [0xFF, 0xEE, 0xDD, 0xCC, 0xBB, 0xAA] :=
  ⟨str2ba_hex_groups b0 b1 b2 b3 b4 b5 u, str2ba_sampleAddr⟩

/-- C7: when the socket opens, the address parses and the connect succeeds,
`NewPrinter` writes exactly three frames, in this order: set-energy (0xAF) with
payload `[power]`, set-quality (0xA4) with payload `[quality]`,
set-drawing-mode (0xBE) with payload `[mode]`. -/
theorem NewPrinter_frames (os : OS) (option : OptionConnect) (tr : List Effect) (fd : Int)
    (addr : List Byte) (hsocket : os.socket = Except.ok fd)
    (haddr : str2ba option.AddrPrinter = some addr) (hconnect : os.connect fd addr = none) :
    frames (NewPrinter os option tr).2
      = frames tr ++ [formatMessage 0xAF [option.PowerPrinter],
          formatMessage 0xA4 [option.QualityPrinter],
          formatMessage 0xBE [option.DrawingModePrinter]] := by
  unfold NewPrinter
  simp only [hsocket, haddr, hconnect, frames_sendCommand, commandSetEnergy, commandSetQuality,
    commandDrawingMode, List.append_assoc, List.singleton_append, List.cons_append,
    List.nil_append]

/-- Witness of C7: power 0xFF, quality 3, mode 1 on a connection that opens. -/
theorem NewPrinter_frames_witness :
    frames (NewPrinter quietOS sampleOption []).2
      = [formatMessage 0xAF [0xFF], formatMessage 0xA4 [3], formatMessage 0xBE [1]] :=
  NewPrinter_frames quietOS sampleOption [] 3 [0xFF, 0xEE, 0xDD, 0xCC, 0xBB, 0xAA] rfl
    str2ba_sampleAddr rfl

/-- A frame built by `formatMessage` satisfies the frame invariant exactly when
its payload has at most 255 bytes. -/
theorem FrameInvariant_formatMessage (c : Byte) (d : List Byte) :
    FrameInvariant (formatMessage c d) ↔ d.length ≤ 255 := by
  rw [formatMessage_eq]
  unfold FrameInvariant
  have h4 : ([0x51, 0x78, c, 0x00, toByte d.length, 0x00] ++ d ++ [crc8 d, 0xFF]).getD 4 0
      = toByte d.length := rfl
  rw [h4]
  have hv : (toByte d.length).val = d.length % 256 := rfl
  rw [hv]
  simp only [List.length_append, List.length_cons, List.length_nil]
  omega

/-- C10, amended: for every raster at most 2040 pixels wide, every frame
`PrintImage` emits satisfies the frame invariant. -/
theorem PrintImage_frame_invariant (os : OS) (p : Printer) (img : Image)
    (hw : img.Dx ≤ 2040) :
    ∀ f ∈ frames (PrintImage os p [] img).2, FrameInvariant f := by
  intro f hf
  rw [frames_PrintImage] at hf
  simp only [frames, List.filterMap_nil, List.nil_append, List.mem_append, List.mem_flatMap,
    List.mem_cons, List.mem_singleton, List.not_mem_nil, or_false] at hf
  rcases hf with ⟨r, hr, rfl | rfl⟩ | rfl
  · rw [FrameInvariant_formatMessage]
    obtain ⟨y, _, rfl⟩ := mem_generateBitMapFromImage img r hr
    rw [(rowLoop_inv img y img.Dx).2.1]
    omega
  · decide
  · decide

/-- Witness of the amended C10: the black 8 by 1 raster. -/
theorem PrintImage_frame_invariant_witness :
    blackImage.Dx ≤ 2040 ∧
      ∀ f ∈ frames (PrintImage quietOS samplePrinter [] blackImage).2, FrameInvariant f :=
  ⟨by decide, PrintImage_frame_invariant quietOS samplePrinter blackImage (by decide)⟩

/-- The draw frame of row 0 is among the frames `PrintImage` emits for a raster
with at least one row. -/
theorem first_row_frame_mem (os : OS) (p : Printer) (img : Image) (h : 0 < img.Dy) :
    formatMessage 0xA2 (rowLoop img 0 img.Dx).1 ∈ frames (PrintImage os p [] img).2 := by
  rw [frames_PrintImage]
  apply List.mem_append_left
  apply List.mem_append_right
  rw [List.mem_flatMap]
  refine ⟨(rowLoop img 0 img.Dx).1, ?_, List.mem_cons_self _ _⟩
  rw [generateBitMapFromImage_eq_map, List.mem_map]
  exact ⟨0, List.mem_range.mpr h, rfl⟩

/-- A frame with a payload of 256 bytes has 264 bytes and length byte 0. -/
theorem formatMessage_of_length_256 (c : Byte) (d : List Byte) (h : d.length = 256) :
    (formatMessage c d).length = 264 ∧ (formatMessage c d).getD 4 0 = 0 ∧
      ¬ FrameInvariant (formatMessage c d) := by
  refine ⟨?_, ?_, ?_⟩
  · rw [formatMessage_eq]
    simp only [List.length_append, List.length_cons, List.length_nil, h]
  · rw [formatMessage_eq]
    show toByte d.length = 0
    rw [h]
    rfl
  · rw [FrameInvariant_formatMessage, h]
    decide

/-- Counterexample to C10 as stated: for a raster 2041 pixels wide and 1 high
the draw frame carries 256 payload bytes (264 bytes in all) while its length
byte is 0, so it violates the frame invariant. -/
theorem PrintImage_wide_breaks_invariant :
    ∃ f ∈ frames (PrintImage quietOS samplePrinter [] wideImage).2,
      f.length = 264 ∧ f.getD 4 0 = 0 ∧ ¬ FrameInvariant f :=
  ⟨formatMessage 0xA2 (rowLoop wideImage 0 wideImage.Dx).1,
    first_row_frame_mem quietOS samplePrinter wideImage (Nat.zero_lt_one),
    formatMessage_of_length_256 _ _ (rowLoop_inv wideImage 0 wideImage.Dx).2.1⟩

/-! ## Text printing -/

/-- The trace after the draw/feed passes for the rows of the given rasters, one
raster after the other. -/
theorem frames_foldl_images (os : OS) (p : Printer) (imgs : List Image) (tr : List Effect) :
    frames (imgs.foldl (fun tr img => (generateBitMapFromImage img).foldl (printRow os p) tr) tr)
      = frames tr ++ imgs.flatMap fun img =>
          (generateBitMapFromImage img).flatMap fun row =>
            [formatMessage 0xA2 row, formatMessage 0xA1 [0x00]] := by
  induction imgs generalizing tr with
  | nil => simp
  | cons img rest ih =>
    simp only [List.foldl_cons, ih, frames_foldl_printRow, List.flatMap_cons, List.append_assoc]

/-- The loop of `PrintText` over lines of which the first one that fails to
rasterize comes after `pre`: the error of that line, and only the rows of the
rasters of `pre` have been printed. -/
theorem printTextLoop_error (os : OS) (r : Text2Img) (p : Printer) (option : OptionPrint)
    (pre : List (List Byte)) (line : List Byte) (post : List (List Byte)) (imgs : List Image)
    (e : Error) (tr : List Effect)
    (hok : pre.map (fun line => generateImageFromText r line option) = imgs.map Except.ok)
    (herr : generateImageFromText r line option = Except.error e) :
    printTextLoop os r p option (pre ++ line :: post) tr
      = (some e, imgs.foldl
          (fun tr img => (generateBitMapFromImage img).foldl (printRow os p) tr) tr) := by
  induction pre generalizing imgs tr with
  | nil =>
    cases imgs with
    | nil => simp only [List.nil_append, printTextLoop, herr, List.foldl_nil]
    | cons img rest => simp at hok
  | cons l rest ih =>
    cases imgs with
    | nil => simp at hok
    | cons img imgs =>
      simp only [List.map_cons, List.cons.injEq] at hok
      simp only [List.cons_append, printTextLoop, hok.1, List.foldl_cons]
      exact ih imgs _ hok.2

/-- The loop of `PrintText` ends with an error exactly when some line fails to
rasterize. -/
theorem printTextLoop_error_iff (os : OS) (r : Text2Img) (p : Printer) (option : OptionPrint)
    (lines : List (List Byte)) (tr : List Effect) :
    (printTextLoop os r p option lines tr).1 ≠ none ↔
      ∃ line ∈ lines, ∃ e, generateImageFromText r line option = Except.error e := by
  induction lines generalizing tr with
  | nil => simp [printTextLoop]
  | cons line rest ih =>
    cases h : generateImageFromText r line option with
    | error e =>
      simp only [printTextLoop, h, ne_eq, not_false_eq_true, true_iff, reduceCtorEq]
      exact ⟨line, List.mem_cons_self _ _, e, h⟩
    | ok img =>
      simp only [printTextLoop, h, ih, List.mem_cons, exists_eq_or_imp, reduceCtorEq,
        exists_false, false_or]

/-- What `PrintText` returns, in terms of its loop. -/
theorem PrintText_eq (os : OS) (r : Text2Img) (p : Printer) (tr : List Effect)
    (text : List Byte) (option : OptionPrint) :
    PrintText os r p tr text option =
      match printTextLoop os r p option (splitOnByte 0x0A text) tr with
      | (some err, tr) => (some err, tr)
      | (none, tr) => (none, sendCommand os p tr commandFeedPaper [0x50]) := rfl

/-- C12: `PrintText` returns an error exactly when some line fails to
rasterize; when the first failing line comes after the lines `pre`, the error
returned is the rasterizer's error for that line and the frames emitted are
exactly the draw / feed(0x00) pairs of the lines of `pre`: nothing for the
failing line or a later one, and no final feed(0x50). -/
theorem PrintText_error (os : OS) (r : Text2Img) (p : Printer) (tr : List Effect)
    (text : List Byte) (option : OptionPrint) :
    ((PrintText os r p tr text option).1 ≠ none ↔
        ∃ line ∈ splitOnByte 0x0A text, ∃ e,
          generateImageFromText r line option = Except.error e) ∧
      ∀ (pre : List (List Byte)) (line : List Byte) (post : List (List Byte))
        (imgs : List Image) (e : Error),
        splitOnByte 0x0A text = pre ++ line :: post →
        pre.map (fun line => generateImageFromText r line option) = imgs.map Except.ok →
        generateImageFromText r line option = Except.error e →
        (PrintText os r p tr text option).1 = some e ∧
          frames (PrintText os r p tr text option).2
            = frames tr ++ imgs.flatMap fun img =>
                (generateBitMapFromImage img).flatMap fun row =>
                  [formatMessage 0xA2 row, formatMessage 0xA1 [0x00]] := by
  constructor
  · rw [← printTextLoop_error_iff os r p option (splitOnByte 0x0A text) tr, PrintText_eq]
    rcases h : printTextLoop os r p option (splitOnByte 0x0A text) tr with ⟨_ | err, tr2⟩ <;> simp
  · intro pre line post imgs e hsplit hok herr
    have hloop := printTextLoop_error os r p option pre line post imgs e tr hok herr
    rw [← hsplit] at hloop
    rw [PrintText_eq, hloop]
    exact ⟨rfl, frames_foldl_images os p imgs tr⟩

/-- Witness of C12: the text "A", empty line, "B" on the sample rasterizer,
which refuses the empty line. -/
theorem PrintText_error_witness :
    (PrintText quietOS sampleText2Img samplePrinter [] (ascii "A\n\nB") sampleOptionPrint).1
        = some (Error.other "empty line") ∧
      frames (PrintText quietOS sampleText2Img samplePrinter [] (ascii "A\n\nB")
          sampleOptionPrint).2
        = frames [] ++ [(⟨0, 0, 16, 2, fun _ _ => ⟨0, 0, 0, 255⟩⟩ : Image)].flatMap fun img =>
            (generateBitMapFromImage img).flatMap fun row =>
              [formatMessage 0xA2 row, formatMessage 0xA1 [0x00]] :=
  (PrintText_error quietOS sampleText2Img samplePrinter [] (ascii "A\n\nB")
      sampleOptionPrint).2
    [ascii "A"] [] [ascii "B"] [⟨0, 0, 16, 2, fun _ _ => ⟨0, 0, 0, 255⟩⟩] (Error.other "empty line")
    (by decide) rfl rfl

/-- An ASCII character is encoded in one byte. -/
theorem utf8EncodeChar_length_ascii (c : Char) (h : c.toNat < 128) :
    (String.utf8EncodeChar c).length = 1 := by
  rw [String.length_utf8EncodeChar]
  unfold Char.utf8Size
  have hle : c.val ≤ UInt32.ofNatCore 0x7F (by decide) := by
    show c.val.toNat ≤ 127
    have : c.val.toNat = c.toNat := rfl
    omega
  simp only [hle, if_true]

/-- The Go string of an ASCII text has one byte per character. -/
theorem goString_length_ascii (l : List Char) (h : ∀ c ∈ l, c.toNat < 128) :
    (l.flatMap fun c => (String.utf8EncodeChar c).map fun b => toByte b.toNat).length
      = l.length := by
  induction l with
  | nil => rfl
  | cons c cs ih =>
    simp only [List.flatMap_cons, List.length_append, List.length_map, List.length_cons,
      utf8EncodeChar_length_ascii c (h c (List.mem_cons_self _ _)),
      ih (fun c hc => h c (List.mem_cons_of_mem _ hc))]
    omega

/-- C13, amended: for every line passed to the rasterizer, the requested width
is 16 times the length `len(text)` of the line in bytes, which is 16 times its
number of characters when the line is ASCII, and the requested height is the
font size option. -/
theorem textParams_size (r : Text2Img) (text : List Byte) (option : OptionPrint) :
    (textParams text option).Width = 16 * (text.length : Int) ∧
      (textParams text option).Height = option.FontSize ∧
      generateImageFromText r text option
        = (r.NewDrawer (textParams text option)).bind (fun d => r.Draw d text) ∧
      ∀ s : String, (∀ c ∈ s.toList, c.toNat < 128) →
        (textParams (goString s) option).Width = 16 * (s.length : Int) := by
  refine ⟨?_, rfl, ?_, fun s hs => ?_⟩
  · show (text.length : Int) * 16 = 16 * (text.length : Int)
    omega
  · unfold generateImageFromText
    cases r.NewDrawer (textParams text option) with
    | error err => rfl
    | ok d =>
      cases h : r.Draw d text with
      | error err => simp [Except.bind, h]
      | ok img => simp [Except.bind, h]
  · show ((goString s).length : Int) * 16 = 16 * (s.length : Int)
    have hlen : (goString s).length = s.length := goString_length_ascii s.toList hs
    rw [hlen]
    omega

/-- Witness of the amended C13: the ASCII line "AB" requests width 32. -/
theorem textParams_size_witness :
    (textParams (goString "AB") sampleOptionPrint).Width = 16 * (("AB" : String).length : Int) :=
  (textParams_size sampleText2Img (goString "AB") sampleOptionPrint).2.2.2 "AB" (by decide)

/-- Counterexample to C13 as stated: the line consisting of the single
character U+00E9 has one character but two bytes, and the requested width is
32, not 16. -/
theorem textParams_width_counts_bytes :
    accentedText.length = 1 ∧
      (textParams (goString accentedText) sampleOptionPrint).Width = 32 ∧
      (textParams (goString accentedText) sampleOptionPrint).Width
        ≠ 16 * (accentedText.length : Int) := by
  decide

/-! ## Frames of any length, write failures, and algebra of the checksum -/

/-- C14: `formatMessage` neither validates nor splits nor truncates: for a
payload `d` of any length the frame has `len(d) + 8` bytes, starts with the
header `[0x51, 0x78, c, 0x00, len(d) mod 256, 0x00]`, carries all of `d` from
offset 6 on, followed by `crc8(d)` and 0xFF; the length byte differs from the
number of payload bytes exactly when `len(d) > 255`. -/
theorem formatMessage_any_length (c : Byte) (d : List Byte) :
    (formatMessage c d).length = d.length + 8 ∧
      (formatMessage c d).take 6 = [0x51, 0x78, c, 0x00, toByte d.length, 0x00] ∧
      (formatMessage c d).drop 6 = d ++ [crc8 d, 0xFF] ∧
      ((formatMessage c d).drop 6).take d.length = d ∧
      ((formatMessage c d).getD 4 0).val = d.length % 256 ∧
      (((formatMessage c d).getD 4 0).val ≠ d.length ↔ d.length > 255) := by
  rw [formatMessage_eq]
  refine ⟨?_, rfl, ?_, ?_, rfl, ?_⟩
  · simp only [List.length_append, List.length_cons, List.length_nil]
    omega
  · simp
  · simp
  · show (toByte d.length).val ≠ d.length ↔ d.length > 255
    have hv : (toByte d.length).val = d.length % 256 := rfl
    rw [hv]
    omega

/-- C15: whatever the writes answer, `PrintImage` returns no error and
performs the same effects, hence attempts the same frames in the same order, as
on an operating system on which no write fails. -/
theorem PrintImage_ignores_write_errors (os : OS) (p : Printer) (tr : List Effect)
    (img : Image) :
    (PrintImage os p tr img).1 = none ∧
      (PrintImage os p tr img).2
        = (PrintImage ⟨os.socket, os.connect, fun _ => false⟩ p tr img).2 ∧
      frames (PrintImage os p tr img).2
        = frames (PrintImage ⟨os.socket, os.connect, fun _ => false⟩ p tr img).2 := by
  have hsend : ∀ (os1 os2 : OS) (tr : List Effect) (command : Byte) (data : List Byte),
      sendCommand os1 p tr command data = sendCommand os2 p tr command data := by
    intro os1 os2 tr command data
    unfold sendCommand unixWrite
    simp
  have hrow : ∀ (os1 os2 : OS), printRow os1 p = printRow os2 p := by
    intro os1 os2
    funext tr bmp
    unfold printRow
    simp only [hsend os1 os2]
  have htr : (PrintImage os p tr img).2
      = (PrintImage ⟨os.socket, os.connect, fun _ => false⟩ p tr img).2 := by
    unfold PrintImage
    simp only [hrow os ⟨os.socket, os.connect, fun _ => false⟩,
      hsend os ⟨os.socket, os.connect, fun _ => false⟩]
  exact ⟨rfl, htr, by rw [htr]⟩

set_option maxRecDepth 100000 in
/-- Looking up a table entry's position gives the index back: no value occurs
twice in the table. -/
theorem crc8TableIndex_entry : ∀ i : Byte, crc8TableIndex (crc8_table.getD i.val 0) = i := by
  decide

set_option maxRecDepth 100000 in
/-- Feeding the running value itself gives 0. -/
theorem crc8Step_self : ∀ c : Byte, crc8Step c c = 0 := by decide

/-- XOR of bytes is XOR of their values. -/
theorem byte_xor_val (a b : Byte) : (a ^^^ b).val = a.val ^^^ b.val := by
  have h : (a ^^^ b).val = (a.val ^^^ b.val) % 256 := rfl
  rw [h]
  apply Nat.mod_eq_of_lt
  have ha : a.val < 2 ^ 8 := a.isLt
  have hb : b.val < 2 ^ 8 := b.isLt
  exact Nat.xor_lt_two_pow ha hb

/-- The table lookup is injective. -/
theorem crc8_table_injective (i j : Byte)
    (h : crc8_table.getD i.val 0 = crc8_table.getD j.val 0) : i = j := by
  rw [← crc8TableIndex_entry i, ← crc8TableIndex_entry j, h]

/-- For a fixed running value the update is injective in the input byte. -/
theorem crc8Step_injective_right (c a b : Byte) (h : crc8Step c a = crc8Step c b) : a = b := by
  unfold crc8Step at h
  rw [byte_and_ff, byte_and_ff] at h
  have hx := crc8_table_injective _ _ h
  apply Fin.ext
  have hv : c.val ^^^ a.val = c.val ^^^ b.val := by
    rw [← byte_xor_val, ← byte_xor_val, hx]
  exact Nat.xor_right_injective hv

/-- For a fixed input byte the update is injective in the running value. -/
theorem crc8Step_injective_left (b c1 c2 : Byte) (h : crc8Step c1 b = crc8Step c2 b) :
    c1 = c2 := by
  unfold crc8Step at h
  rw [byte_and_ff, byte_and_ff] at h
  have hx := crc8_table_injective _ _ h
  apply Fin.ext
  have hv : c1.val ^^^ b.val = c2.val ^^^ b.val := by
    rw [← byte_xor_val, ← byte_xor_val, hx]
  exact Nat.xor_left_injective hv

/-- Different running values stay different over the same input. -/
theorem foldl_crc8Step_ne (d : List Byte) (c1 c2 : Byte) (h : c1 ≠ c2) :
    d.foldl crc8Step c1 ≠ d.foldl crc8Step c2 := by
  induction d generalizing c1 c2 with
  | nil => exact h
  | cons b bs ih =>
    simp only [List.foldl_cons]
    exact ih _ _ (fun hs => h (crc8Step_injective_left b c1 c2 hs))

/-- Two inputs of equal length that differ at exactly one position give
different running values, from every start value. -/
theorem foldl_crc8Step_single_change (d1 d2 : List Byte) (i : Nat) (c : Byte)
    (hlen : d1.length = d2.length) (hi : i < d1.length) (hne : d1[i]? ≠ d2[i]?)
    (hsame : ∀ j, j ≠ i → d1[j]? = d2[j]?) :
    d1.foldl crc8Step c ≠ d2.foldl crc8Step c := by
  induction d1 generalizing d2 i c with
  | nil => simp at hi
  | cons x xs ih =>
    cases d2 with
    | nil => simp at hlen
    | cons y ys =>
      simp only [List.foldl_cons]
      cases i with
      | zero =>
        have hxy : x ≠ y := by
          intro hxy
          apply hne
          simp [hxy]
        have htail : xs = ys := by
          apply List.ext_getElem?
          intro j
          have := hsame (j + 1) (by omega)
          simpa using this
        rw [htail]
        exact foldl_crc8Step_ne ys _ _ (fun hs => hxy (crc8Step_injective_right c x y hs))
      | succ k =>
        have hxy : x = y := by
          have := hsame 0 (by omega)
          simpa using this
        rw [hxy]
        apply ih ys k (crc8Step c y)
        · simpa using hlen
        · simpa using hi
        · simpa using hne
        · intro j hj
          have := hsame (j + 1) (by omega)
          simpa using this

/-- C16: two byte sequences of equal length that differ in exactly one
position have different checksums; the table lookup is a bijection on the 256
byte values and so is the per-byte update of the running value. -/
theorem crc8_detects_single_byte_change (d1 d2 : List Byte) (i : Nat)
    (hlen : d1.length = d2.length) (hi : i < d1.length) (hne : d1[i]? ≠ d2[i]?)
    (hsame : ∀ j, j ≠ i → d1[j]? = d2[j]?) :
    crc8 d1 ≠ crc8 d2 ∧
      Function.Bijective (fun k : Byte => crc8_table.getD k.val 0) ∧
      ∀ b : Byte, Function.Bijective (fun crc : Byte => crc8Step crc b) := by
  refine ⟨?_, ?_, fun b => ?_⟩
  · rw [crc8_eq_foldl, crc8_eq_foldl]
    exact foldl_crc8Step_single_change d1 d2 i 0 hlen hi hne hsame
  · exact (Finite.injective_iff_bijective).mp (fun k l h => crc8_table_injective k l h)
  · exact (Finite.injective_iff_bijective).mp (fun k l h => crc8Step_injective_left b k l h)

/-- Witness of C16: the payloads `[0x00]` and `[0x50]`. -/
theorem crc8_detects_single_byte_change_witness :
    crc8 [0x00] ≠ crc8 [0x50] :=
  (crc8_detects_single_byte_change [0x00] [0x50] 0 rfl (by decide) (by decide)
    (fun j hj => by
      cases j with
      | zero => exact absurd rfl hj
      | succ k => rfl)).1

/-- C17: frame encoding is injective: equal frames have equal command bytes and
equal payloads, whatever the payload lengths. -/
theorem formatMessage_injective (c1 c2 : Byte) (d1 d2 : List Byte)
    (h : formatMessage c1 d1 = formatMessage c2 d2) : c1 = c2 ∧ d1 = d2 := by
  have hlen : d1.length = d2.length := by
    have := congrArg List.length h
    rw [formatMessage_eq, formatMessage_eq] at this
    simp only [List.length_append, List.length_cons, List.length_nil] at this
    omega
  rw [formatMessage_eq, formatMessage_eq] at h
  simp only [List.cons_append, List.nil_append, List.cons.injEq, true_and] at h
  exact ⟨h.1, (List.append_inj h.2.2 hlen).1⟩

/-- Witness of C17: a frame compared with itself. -/
theorem formatMessage_injective_witness :
    (0xA1 : Byte) = 0xA1 ∧ ([0x50] : List Byte) = [0x50] :=
  formatMessage_injective 0xA1 0xA1 [0x50] [0x50] rfl

/-- C19: the checksum of a payload followed by its own checksum byte is 0. -/
theorem crc8_residue (d : List Byte) : crc8 (d ++ [crc8 d]) = 0 := by
  rw [crc8_eq_foldl, List.foldl_append, crc8_eq_foldl]
  simp only [List.foldl_cons, List.foldl_nil]
  exact crc8Step_self _

/-! ## Padding of a partial byte -/

/-- C18: when the width is not a multiple of 8, with `k = Dx mod 8`, every row
has `Dx/8 + 1` bytes and the last one, at index `Dx/8`, has its low-order
`8 - k` bits equal to 0, whatever the pixels; its `k` high-order bits are the
paint tests of the `k` colours read for the partial group, the first one
lowest, which for a raster whose bounds start at the origin are the `k` pixels
of the partial group. -/
theorem partial_byte_padding (img : Image) (y : Nat) (hy : y < img.Dy)
    (hw : img.Dx % 8 ≠ 0) :
    ((generateBitMapFromImage img).getD y []).length = img.Dx / 8 + 1 ∧
      (∀ i, i < 8 - img.Dx % 8 →
        (((generateBitMapFromImage img).getD y []).getD (img.Dx / 8) 0).val.testBit i = false) ∧
      (∀ j, j < img.Dx % 8 →
        (((generateBitMapFromImage img).getD y []).getD (img.Dx / 8) 0).val.testBit
            (8 - img.Dx % 8 + j)
          = paintTest (img.RGBAAt ((8 * (img.Dx / 8) + j : Nat) : Int) (y : Int))) ∧
      (img.MinX = 0 → img.MinY = 0 → ∀ j, j < img.Dx % 8 →
        (((generateBitMapFromImage img).getD y []).getD (img.Dx / 8) 0).val.testBit
            (8 - img.Dx % 8 + j)
          = paintTest (img.pix (8 * (img.Dx / 8) + j) y)) := by
  have hrow : (generateBitMapFromImage img).getD y [] = (rowLoop img y img.Dx).1 := by
    rw [generateBitMapFromImage_eq_map]
    simp [List.getD_eq_getElem?_getD, List.getElem?_range hy]
  have hmin : min 8 (img.Dx - 8 * (img.Dx / 8)) = img.Dx % 8 := by omega
  have hread : ∀ j, j < img.Dx % 8 →
      (((generateBitMapFromImage img).getD y []).getD (img.Dx / 8) 0).val.testBit
          (8 - img.Dx % 8 + j)
        = paintTest (img.RGBAAt ((8 * (img.Dx / 8) + j : Nat) : Int) (y : Int)) := by
    intro j hj
    rw [generateBitMapFromImage_bit img y _ _ hy]
    unfold rowBit
    have e1 : 8 ≤ 8 - img.Dx % 8 + j + img.Dx % 8 := by omega
    have e2 : 8 * (img.Dx / 8) < img.Dx := by omega
    have e3 : 8 - img.Dx % 8 + j < 8 := by omega
    have e4 : 8 * (img.Dx / 8) + (8 - img.Dx % 8 + j) + img.Dx % 8 - 8
        = 8 * (img.Dx / 8) + j := by omega
    simp only [hmin, e1, e2, e3, e4, decide_True, Bool.true_and]
  refine ⟨?_, fun i hi => ?_, hread, fun hx0 hy0 j hj => ?_⟩
  · rw [hrow, (rowLoop_inv img y img.Dx).2.1]
    omega
  · rw [generateBitMapFromImage_bit img y _ i hy]
    unfold rowBit
    have e1 : ¬ 8 ≤ i + img.Dx % 8 := by omega
    simp only [hmin, e1, decide_False, Bool.and_false, Bool.false_and]
  · rw [hread j hj, RGBAAt_of_origin img hx0 hy0 _ y (by omega) hy]

/-- Witness of C18: the 1 by 1 raster of one black pixel, whose only byte 0x80
has bit 0 clear. -/
theorem partial_byte_padding_witness :
    (((generateBitMapFromImage (onePixelImage ⟨0, 0, 0, 255⟩)).getD 0 []).getD
        ((onePixelImage ⟨0, 0, 0, 255⟩).Dx / 8) 0).val.testBit 0 = false :=
  (partial_byte_padding (onePixelImage ⟨0, 0, 0, 255⟩) 0 (by decide) (by decide)).2.1 0
    (by decide)

/-! ## Safety of the address parser -/

/-- Once the loop of `str2ba` has panicked it stays so. -/
theorem foldl_str2baStep_none (l : List (Nat × List Byte)) :
    l.foldl str2baStep none = none := by
  induction l with
  | nil => rfl
  | cons x xs ih => simpa [str2baStep] using ih

/-- One pass of the loop of `str2ba` on a 6-byte array: an assignment at index
`5 - i` when `i ≤ 5`, a panic otherwise. -/
theorem str2baStep_some (b : List Byte) (i : Nat) (tmp : List Byte) (hb : b.length = 6) :
    str2baStep (some b) (i, tmp)
      = if i ≤ 5 then some (b.set (5 - i) (toByte (ParseUint tmp).1)) else none := by
  unfold str2baStep
  simp only [hb]
  by_cases hi : i ≤ 5
  · have h1 : (0 : Int) ≤ ((6 : Nat) : Int) - 1 - (i : Int) ∧
        ((6 : Nat) : Int) - 1 - (i : Int) < ((6 : Nat) : Int) := by omega
    have h2 : (((6 : Nat) : Int) - 1 - (i : Int)).toNat = 5 - i := by omega
    rw [if_pos h1, if_pos hi, h2]
  · have h1 : ¬ ((0 : Int) ≤ ((6 : Nat) : Int) - 1 - (i : Int) ∧
        ((6 : Nat) : Int) - 1 - (i : Int) < ((6 : Nat) : Int)) := by omega
    rw [if_neg h1, if_neg hi]

/-- The loop of `str2ba` over the pieces `a`, numbered from `s`, on a 6-byte
array: when the numbers stay below 6 it ends with a 6-byte array that leaves
the bytes below index `6 - (s + len a)` as they were; when a number reaches 6 it
panics. -/
theorem foldl_str2baStep (a : List (List Byte)) (s : Nat) (b : List Byte)
    (hb : b.length = 6) :
    (s + a.length ≤ 6 →
        ∃ b2, (a.enumFrom s).foldl str2baStep (some b) = some b2 ∧ b2.length = 6 ∧
          ∀ j, j + (s + a.length) < 6 → b2.getD j 0 = b.getD j 0) ∧
      (a ≠ [] → 6 < s + a.length → (a.enumFrom s).foldl str2baStep (some b) = none) := by
  induction a generalizing s b with
  | nil =>
    exact ⟨fun _ => ⟨b, rfl, hb, fun _ _ => rfl⟩, fun h _ => absurd rfl h⟩
  | cons tmp rest ih =>
    simp only [List.enumFrom_cons, List.foldl_cons, List.length_cons, str2baStep_some b s tmp hb]
    constructor
    · intro hle
      have hs : s ≤ 5 := by omega
      rw [if_pos hs]
      have hb1 : (b.set (5 - s) (toByte (ParseUint tmp).1)).length = 6 := by
        rw [List.length_set]; exact hb
      obtain ⟨b2, h2, hlen2, hget2⟩ := (ih (s + 1) _ hb1).1 (by omega)
      refine ⟨b2, h2, hlen2, fun j hj => ?_⟩
      rw [hget2 j (by omega), getD_set_byte _ _ _ _ (by rw [hb]; omega)]
      rw [if_neg (by omega)]
    · intro _ hgt
      by_cases hs : s ≤ 5
      · rw [if_pos hs]
        have hb1 : (b.set (5 - s) (toByte (ParseUint tmp).1)).length = 6 := by
          rw [List.length_set]; exact hb
        have hrest : rest ≠ [] := by
          intro h
          rw [h] at hgt
          simp at hgt
          omega
        exact (ih (s + 1) _ hb1).2 hrest (by omega)
      · rw [if_neg hs]
        exact foldl_str2baStep_none _

/-- C20: an address that splits on the colon into at most 6 groups gives a
6-byte array without panic, whose bytes at the indices below `6 - n` (that is
`0 .. 5-n`, the ones without group) are 0; an address that splits into 7 or
more groups makes the index `5 - i` negative and the call panics. -/
theorem str2ba_safe (addr : List Byte) :
    ((splitColon addr).length ≤ 6 →
        ∃ b, str2ba addr = some b ∧ b.length = 6 ∧
          ∀ j, j + (splitColon addr).length < 6 → b.getD j 0 = 0) ∧
      (7 ≤ (splitColon addr).length → str2ba addr = none) := by
  have hb : (List.replicate 6 (0 : Byte)).length = 6 := rfl
  have hmain := foldl_str2baStep (splitColon addr) 0 (List.replicate 6 0) hb
  constructor
  · intro hle
    obtain ⟨b2, h2, hlen2, hget2⟩ := hmain.1 (by omega)
    refine ⟨b2, h2, hlen2, fun j hj => ?_⟩
    rw [hget2 j (by omega)]
    have h6 : j < 6 := by omega
    interval_cases j <;> rfl
  · intro hge
    have hne : splitColon addr ≠ [] := by
      intro h
      rw [h] at hge
      simp at hge
    exact hmain.2 hne (by omega)

/-- Witness of C20: "AA:BB" gives an array whose first four bytes are 0, and
"1:2:3:4:5:6:7" panics. -/
theorem str2ba_safe_witness :
    (∃ b, str2ba shortAddr = some b ∧ b.length = 6 ∧
        ∀ j, j + (splitColon shortAddr).length < 6 → b.getD j 0 = 0) ∧
      str2ba longAddr = none :=
  ⟨(str2ba_safe shortAddr).1 (by decide), (str2ba_safe longAddr).2 (by decide)⟩

end Gopos
